import Mathlib

/-!
Verification development for the distributed-pipeline module
(fairscale/experimental/nn/multiprocess_pipe.py).

The Python source is shallowly embedded: each Python class becomes a Lean
structure, each method a Lean function.  Python runtime failures
(AssertionError, IndexError, AttributeError, ValueError, StopIteration,
KeyError) are modelled by an explicit error type threaded through
`Except`.  External collaborators (torch streams and events, the RPC
transport, autograd fork/join primitives, the micro-batch scatter/gather
utilities) are out of scope per the design document and are modelled as
opaque constructors on an abstract tensor type.
-/

/-- Error kinds raised by the embedded Python code.  `fuelError` is an
artifact of bounding the while-loop of `_split_module` by a fuel counter;
it is provably unreachable because each loop iteration marks a previously
unmarked module (see `buildChain_spec`). -/
inductive PipeError where
  | valueError : String → PipeError
  | assertionError : PipeError
  | indexError : PipeError
  | attributeError : PipeError
  | stopIteration : PipeError
  | keyError : PipeError
  | typeError : String → PipeError
  | fuelError : PipeError
deriving DecidableEq, Repr

deriving instance DecidableEq for Except

/-- True exactly on `valueError` (Python ValueError). -/
def PipeError.isValueError : PipeError → Bool
  | .valueError _ => true
  | _ => false

/-- Abstract tensors.  `base` is an input tensor with a payload id and a
device string; `phony` is the dependency token created by the external
`fork` primitive; `joined` is the result of the external `join` primitive;
`toDev` is `Tensor.to(device)`; `catPair` models concatenation as used by
the external `microbatch.gather` utility. -/
inductive Tensor where
  | base : Nat → String → Tensor
  | phony : Tensor → Tensor
  | joined : Tensor → Tensor → Tensor
  | toDev : Tensor → String → Tensor
  | catPair : Tensor → Tensor → Tensor
deriving DecidableEq, Repr

/-- Device of a tensor (torch `Tensor.device`). -/
def Tensor.device : Tensor → String
  | .base _ d => d
  | .phony t => t.device
  | .joined t _ => t.device
  | .toDev _ d => d
  | .catPair t _ => t.device

/-- Splits a character list on a separator character (Python str.split with
a one-character separator, on the character level). -/
def splitOnChar (c : Char) : List Char → List (List Char)
  | [] => [[]]
  | x :: xs =>
    let r := splitOnChar c xs
    if x = c then [] :: r
    else
      match r with
      | [] => [[x]]
      | h :: t => (x :: h) :: t

/-- Device type of a torch device string: the part before the colon
("cuda:0" has type "cuda", "cpu" has type "cpu"). -/
def deviceTypeOf (d : String) : String := String.mk (d.data.takeWhile (· ≠ ':'))

/-- External primitive fairscale.nn.pipe.dependency.fork: returns the input
on the data path together with a fresh dependency token. -/
def fork (t : Tensor) : Tensor × Tensor := (t, Tensor.phony t)

/-- A micro-batch: the tuple of tensors of one chunk plus the chunk index
(fairscale.nn.pipe.microbatch.Batch; the partition code always wraps module
results in a tuple, so the tuple form suffices). -/
structure Batch where
  tensors : List Tensor
  index : Nat
deriving DecidableEq, Repr

/-- Lifts an optional value into `Except`, raising `e` on `none` (models a
Python operation that raises on the missing case). -/
def ofOption (e : PipeError) : Option α → Except PipeError α
  | some a => .ok a
  | none => .error e

/-- PipelineModule: number of forward inputs, number of tuple outputs
(`none` when the module returns a single tensor), and the worker/device it
was instantiated on (`none` before `instantiate` is called; accessing
`.on`/`.device` before then is a Python AttributeError). -/
structure PipelineModule where
  num_inputs : Nat
  num_outputs : Option Nat
  remote_device : Option (String × String)
deriving DecidableEq, Repr

instance : Inhabited PipelineModule := ⟨⟨1, none, none⟩⟩

/-- PipelineModule.instantiate: parses "worker/device" and records it.  A
string without exactly one slash makes the Python tuple unpacking raise a
ValueError. -/
def PipelineModule.instantiate (m : PipelineModule) (remote_device : String) :
    Except PipeError PipelineModule :=
  match splitOnChar '/' remote_device.data with
  | [onPart, devPart] => .ok { m with remote_device := some (String.mk onPart, String.mk devPart) }
  | _ => .error (.valueError "not enough values to unpack")

/-- PipelineModulesGraph: the ordered module list and, per module, the
optional list of input sources.  A source `(p, k)` with `p ≥ 0` means
output slot `k` of module `p`; a negative `p` (the code writes `-1`) means
overall model input number `k`. -/
structure PipelineModulesGraph where
  modules_list : List PipelineModule
  inputs : List (Option (List (Int × Nat)))
deriving DecidableEq, Repr

/-- PipelineModulesGraph._find_or_add: position of the module in the list,
appending it (with an unset input slot) when absent. -/
def PipelineModulesGraph.find_or_add (g : PipelineModulesGraph) (m : PipelineModule) :
    PipelineModulesGraph × Nat :=
  match g.modules_list.indexOf? m with
  | some i => (g, i)
  | none =>
      ({ modules_list := g.modules_list ++ [m], inputs := g.inputs ++ [none] },
       g.modules_list.length)

/-- PipelineModulesGraph.add_sequence with no `first_input`: appends the
modules and wires each one (except the first) to output 0 of its
predecessor. -/
def PipelineModulesGraph.add_sequence (g : PipelineModulesGraph)
    (modules : List PipelineModule) : PipelineModulesGraph :=
  let old_m := g.modules_list.length
  let m := modules.length
  let inputs1 := g.inputs ++ List.replicate m none
  let inputs2 := (List.range' (old_m + 1) (m - 1)).foldl
      (fun ins i => ins.set i (some [((i : Int) - 1, 0)])) inputs1
  { modules_list := g.modules_list ++ modules, inputs := inputs2 }

/-- PipelineModulesGraph.feed_model_input: marks a module input as sourced
from overall model input number `ind`. -/
def PipelineModulesGraph.feed_model_input (g : PipelineModulesGraph)
    (m : PipelineModule) (ind : Nat) : PipelineModulesGraph :=
  let (g2, idx) := g.find_or_add m
  { g2 with inputs := g2.inputs.set idx (some [(-1, ind)]) }

/-- Appends `x` to the `i`-th inner list, `none` when `i` is out of range
(Python IndexError). -/
def appendAt (l : List (List α)) (i : Nat) (x : α) : Option (List (List α)) :=
  match l.get? i with
  | none => none
  | some cell => some (l.set i (cell ++ [x]))

/-- Inner loop of compute_output_users over the enumerated sources of
module `i`: `j` is the running input-slot number.  Consumers of module
outputs are appended to the output-users table, consumers of the overall
model input to the model-input-users list. -/
def couInner (i : Nat) :
    Nat → List (Int × Nat) →
    List (List (Nat × Nat × Nat)) × List (Nat × Nat × Nat) →
    Except PipeError (List (List (Nat × Nat × Nat)) × List (Nat × Nat × Nat))
  | _, [], acc => .ok acc
  | j, (src, slot) :: rest, (ou, miu) =>
    if 0 ≤ src then
      match appendAt ou src.toNat (i, j, slot) with
      | none => .error .indexError
      | some ou2 => couInner i (j + 1) rest (ou2, miu)
    else couInner i (j + 1) rest (ou, miu ++ [(i, j, slot)])

/-- Outer loop of compute_output_users over the enumerated `inputs` list:
`i` is the running module index; an unset input slot is the source
assertion failure. -/
def couOuter :
    Nat → List (Option (List (Int × Nat))) →
    List (List (Nat × Nat × Nat)) × List (Nat × Nat × Nat) →
    Except PipeError (List (List (Nat × Nat × Nat)) × List (Nat × Nat × Nat))
  | _, [], acc => .ok acc
  | _, none :: _, _ => .error .assertionError
  | i, some l :: rest, acc =>
    match couInner i 0 l acc with
    | .error e => .error e
    | .ok acc2 => couOuter (i + 1) rest acc2

/-- PipelineModulesGraph.compute_output_users: derives the output-users
table (one list of `(consumer, consumer input slot, producer output slot)`
per module) and the model-input-users list
(`(consumer, consumer input slot, overall input index)`). -/
def PipelineModulesGraph.compute_output_users (g : PipelineModulesGraph) :
    Except PipeError (List (List (Nat × Nat × Nat)) × List (Nat × Nat × Nat)) :=
  couOuter 0 g.inputs (List.replicate g.modules_list.length [], [])

/-- One evaluation of the chain-extension decision in the while-loop body
of _split_module (lines 475-489 of the source): `.ok none` means the loop
breaks, `.ok (some next)` means the partition extends to `next`. -/
def chainNext (g : PipelineModulesGraph) (ou : List (List (Nat × Nat × Nat)))
    (cur : Nat) : Except PipeError (Option Nat) :=
  match ou.get? cur with
  | none => .error .indexError
  | some users =>
    if users.length ≠ 1 then .ok none
    else
      match g.modules_list.get? cur with
      | none => .error .indexError
      | some curM =>
        if curM.num_outputs.isSome then .ok none
        else
          match users.head? with
          | none => .error .indexError
          | some u =>
            match g.inputs.get? u.1 with
            | none => .error .indexError
            | some nextInp =>
              if nextInp ≠ some [((cur : Int), 0)] then .ok none
              else
                match g.modules_list.get? u.1 with
                | none => .error .indexError
                | some nextM =>
                  match nextM.remote_device, curM.remote_device with
                  | some nd, some cd =>
                    if nd.1 ≠ cd.1 then .ok none
                    else if nd.2 ≠ cd.2 then .ok none
                    else .ok (some u.1)
                  | _, _ => .error .attributeError

/-- The while-loop of _split_module that grows one partition.  Each
iteration asserts the current module unmarked, marks it, appends it to the
partition, and either stops or moves to the unique eligible next module.
`fuel` bounds the iteration count; `_split_module` passes `m + 1`, which
never runs out because every iteration marks a fresh module. -/
def buildChain (g : PipelineModulesGraph) (ou : List (List (Nat × Nat × Nat))) :
    Nat → Nat → List Bool → List Nat → Except PipeError (List Nat × List Bool)
  | 0, _, _, _ => .error .fuelError
  | fuel + 1, cur, used, acc =>
    match used.get? cur with
    | none => .error .indexError
    | some true => .error .assertionError
    | some false =>
      let used2 := used.set cur true
      let acc2 := acc ++ [cur]
      match chainNext g ou cur with
      | .error e => .error e
      | .ok none => .ok (acc2, used2)
      | .ok (some next) => buildChain g ou fuel next used2 acc2

/-- The outer for-loop of _split_module over module indices: skips modules
already assigned to a partition, otherwise grows a new partition from the
index. -/
def splitOuter (g : PipelineModulesGraph) (ou : List (List (Nat × Nat × Nat))) :
    List Nat → List Bool → List (List Nat) →
    Except PipeError (List Bool × List (List Nat))
  | [], used, parts => .ok (used, parts)
  | idx :: rest, used, parts =>
    match used.get? idx with
    | none => .error .indexError
    | some true => splitOuter g ou rest used parts
    | some false =>
      match buildChain g ou (g.modules_list.length + 1) idx used [] with
      | .error e => .error e
      | .ok (part, used2) => splitOuter g ou rest used2 (parts ++ [part])

/-- _split_module: partitions the graph into linear chains and returns the
module-index list of each partition.  (The source additionally wraps each
partition into a remote module handle via RPC; those handles are external
remote references and carry no information relevant to the partition
structure, so the embedding keeps the index lists.) -/
def split_module (g : PipelineModulesGraph) : Except PipeError (List (List Nat)) :=
  match g.compute_output_users with
  | .error e => .error e
  | .ok (output_users, _) =>
    match splitOuter g output_users (List.range g.modules_list.length)
        (List.replicate g.modules_list.length false) [] with
    | .error e => .error e
    | .ok (_, parts) => .ok parts

/-- DistributedPipelineRecord: per-(partition, minibatch) synchronization
state.  `tensors` holds the per-chunk per-input slots, `batches` the
assembled chunk batches, `forwarded_phony` the per-chunk per-slot lists of
dependency tokens returned by downstream `feed` calls, `users` the
downstream consumers as `(consumer record id, consumer input slot, this
partition output slot)`, `rank` the partition index.  (The cuda
`recv_events` table and the condition variable are external stream and
threading primitives and are omitted.) -/
structure DistributedPipelineRecord where
  tensors : List (List (Option Tensor))
  batches : List (Option Batch)
  forwarded_phony : List (List (List Tensor))
  users : List (Nat × Nat × Nat)
  rank : Nat
  device : String
deriving DecidableEq, Repr

instance : Inhabited DistributedPipelineRecord := ⟨⟨[], [], [], [], 0, "cpu"⟩⟩

/-- Entry move of DistributedPipelineRecord.feed: a tensor arriving on cpu
is first moved to the record's device. -/
def movedInput (r : DistributedPipelineRecord) (input : Tensor) : Tensor :=
  if deviceTypeOf input.device = "cpu" then Tensor.toDev input r.device else input

/-- DistributedPipelineRecord.feed: delivers one tensor for one input slot
of one chunk.  The slot must be empty (assert); the stored value is the
data path of `fork` and the returned token its phony. -/
def DistributedPipelineRecord.feed (r : DistributedPipelineRecord)
    (chunk input_idx : Nat) (input : Tensor) :
    Except PipeError (DistributedPipelineRecord × Tensor) :=
  let input1 := movedInput r input
  match r.tensors.get? chunk with
  | none => .error .indexError
  | some row =>
    match row.get? input_idx with
    | none => .error .indexError
    | some (some _) => .error .assertionError
    | some none =>
      let fp := fork input1
      .ok ({ r with tensors := r.tensors.set chunk (row.set input_idx (some fp.1)) }, fp.2)

/-- PartitionHandler.fence: when the chunk is not the first one, the record
has downstream users and the partition rank is positive, replaces every
tensor of the chunk's batch by its join with all dependency tokens
forwarded for the corresponding slot of the previous chunk; otherwise
leaves the record untouched. -/
def PartitionHandler.fence (r : DistributedPipelineRecord) (chunk : Nat) :
    Except PipeError DistributedPipelineRecord :=
  if chunk ≠ 0 ∧ r.users ≠ [] ∧ 0 < r.rank then
    match r.batches.get? chunk with
    | none => .error .indexError
    | some none => .error .assertionError
    | some (some batch) =>
      match r.forwarded_phony.get? (chunk - 1) with
      | none => .error .indexError
      | some phl =>
        let t := List.zipWith
          (fun b remote_ph_list => remote_ph_list.foldl Tensor.joined b)
          batch.tensors phl
        .ok { r with batches := r.batches.set chunk (some ⟨t, chunk⟩) }
  else .ok r

/-- Whether a chunk is computed with the checkpoint/recompute task pairing
(PartitionHandler.compute lines 340-384): the configured cutoff is forced
to 0 when the module is not in training mode, and a chunk is checkpointed
exactly when its index is below the effective cutoff. -/
inductive TaskKind where
  | checkpointed : TaskKind
  | direct : TaskKind
deriving DecidableEq, Repr

/-- Task selection of PartitionHandler.compute for one chunk. -/
def computeTaskKind (checkpoint_stop : Nat) (training : Bool) (chunk : Nat) : TaskKind :=
  if chunk < (if training then checkpoint_stop else 0) then .checkpointed else .direct

/-- The checkpoint-mode dictionary of DistributedPipeline.__init__
(line 563): micro-batch index where checkpointing stops; `none` models the
KeyError of an unrecognized mode (unreachable after validation). -/
def checkpointStopOf (checkpoint : String) (chunks : Nat) : Option Nat :=
  if checkpoint = "always" then some chunks
  else if checkpoint = "except_last" then some (chunks - 1)
  else if checkpoint = "never" then some 0
  else none

/-- One step of PartitionHandler.forward_results for one user: reads the
chunk's batch, picks the output tensor of the user's output slot, feeds it
to the remote consumer record, and appends the returned dependency token to
`forwarded_phony[chunk][output_idx]`.  The remote feed is asynchronous; the
token it yields is the phony of the forwarded value. -/
def forwardStep (chunk : Nat) (r : DistributedPipelineRecord)
    (u : Nat × Nat × Nat) : Except PipeError DistributedPipelineRecord :=
  match r.batches.get? chunk with
  | none => .error .indexError
  | some none => .error .assertionError
  | some (some batch) =>
    match batch.tensors.get? u.2.2 with
    | none => .error .indexError
    | some v =>
      match r.forwarded_phony.get? chunk with
      | none => .error .indexError
      | some row =>
        match row.get? u.2.2 with
        | none => .error .indexError
        | some cell =>
          .ok { r with forwarded_phony :=
                  r.forwarded_phony.set chunk (row.set u.2.2 (cell ++ [Tensor.phony v])) }

/-- PartitionHandler.forward_results: forwards the chunk's outputs to every
downstream consumer in order. -/
def PartitionHandler.forward_results (chunk : Nat) (r : DistributedPipelineRecord) :
    Except PipeError DistributedPipelineRecord :=
  r.users.foldlM (forwardStep chunk) r

/-- Static description of one partition executor (PartitionHandler fields
set in DistributedPipeline.__init__ lines 565-580). -/
structure PartitionHandlerInfo where
  device : String
  num_input : Nat
  num_output : Option Nat
  rank : Nat
  chunks : Nat
  checkpoint_stop : Nat
deriving DecidableEq, Repr

instance : Inhabited PartitionHandlerInfo := ⟨⟨"cpu", 1, none, 0, 1, 0⟩⟩

/-- PartitionHandler.make_pipeline_record: the fresh synchronization record
for one minibatch, with `chunks` rows of `num_input` empty slots. -/
def PartitionHandler.make_pipeline_record (h : PartitionHandlerInfo)
    (users : List (Nat × Nat × Nat)) : DistributedPipelineRecord :=
  { tensors := List.replicate h.chunks (List.replicate h.num_input none)
    batches := List.replicate h.chunks none
    forwarded_phony := List.replicate h.chunks (List.replicate h.num_input [])
    users := users
    rank := h.rank
    device := h.device }

/-- Collapses the optional per-chunk batches, `none` when any chunk is
missing (the external gather utility fails on a missing chunk). -/
def allSome : List (Option α) → Option (List α)
  | [] => some []
  | none :: _ => none
  | some a :: rest => (allSome rest).map (a :: ·)

/-- External utility fairscale.nn.pipe.microbatch.gather, modelled
behaviourally: concatenates the chunks slot-wise into a single batch. -/
def microbatchGather (bs : List Batch) : Batch :=
  ⟨(List.range (bs.headD ⟨[], 0⟩).tensors.length).map
      (fun j => ((bs.map (fun b => b.tensors.getD j (Tensor.base 0 "cpu"))).foldl
        Tensor.catPair (Tensor.base 0 "cpu"))), 0⟩

/-- Return stage of PartitionHandler.run_pipeline (lines 421-431), applied
to the record after the chunk loop has filled all batches: a terminal
partition (no users) gathers all chunks into a single tensor (the gathered
batch must hold exactly one tensor, by assertion), a non-terminal partition
returns nothing. -/
def runPipelineResult (r : DistributedPipelineRecord) :
    Except PipeError (Option Tensor) :=
  if r.users.isEmpty then
    match allSome r.batches with
    | none => .error .assertionError
    | some bs =>
      let result := microbatchGather bs
      if result.tensors.length = 1 then .ok result.tensors.head?
      else .error .assertionError
  else .ok none

/-- Result selection of DistributedPipeline.forward (lines 628-656): the
loop walks partitions from last to first and binds the model result at
`part_idx = num_partitions - 1`; `none` models the unbound result variable
when there are no partitions. -/
def forwardCollect (records : List DistributedPipelineRecord) :
    Option (Except PipeError (Option Tensor)) :=
  (List.range records.length).reverse.foldl
    (fun acc part_idx =>
      if part_idx = records.length - 1 then
        some (runPipelineResult (records.getD part_idx default))
      else acc)
    none

/-- Everything DistributedPipeline.__init__ computes and stores. -/
structure InitResult where
  chunks : Nat
  partitions : List (List Nat)
  input_feeds : List (Nat × Nat × Nat)
  checkpoint_stop : Nat
  handlers : List PartitionHandlerInfo
deriving DecidableEq, Repr

instance : Inhabited InitResult := ⟨⟨1, [], [], 0, []⟩⟩

/-- The input_feeds comprehension of DistributedPipeline.__init__
(lines 557-560): for each model-input consumer, the index of the partition
whose first module is the consumer; an absent partition is the
StopIteration of the bare `next`. -/
def buildInputFeeds (parts : List (List Nat)) :
    List (Nat × Nat × Nat) → Except PipeError (List (Nat × Nat × Nat))
  | [] => .ok []
  | x :: rest =>
    match parts.findIdx? (fun p => p.head? = some x.1) with
    | none => .error .stopIteration
    | some i =>
      match buildInputFeeds parts rest with
      | .error e => .error e
      | .ok l => .ok ((i, x.2.1, x.2.2) :: l)

/-- The partition_handlers comprehension of DistributedPipeline.__init__
(lines 565-580): per partition, the device and input arity of its first
module and the output arity of its last module. -/
def buildHandlers (g : PipelineModulesGraph) (chunksN cs : Nat) :
    Nat → List (List Nat) → Except PipeError (List PartitionHandlerInfo)
  | _, [] => .ok []
  | i, p :: rest =>
    match p.head? with
    | none => .error .indexError
    | some firstIdx =>
      match p.getLast? with
      | none => .error .indexError
      | some lastIdx =>
        match g.modules_list.get? firstIdx with
        | none => .error .indexError
        | some firstM =>
          match g.modules_list.get? lastIdx with
          | none => .error .indexError
          | some lastM =>
            match firstM.remote_device with
            | none => .error .attributeError
            | some od =>
              match buildHandlers g chunksN cs (i + 1) rest with
              | .error e => .error e
              | .ok hs =>
                .ok ({ device := od.2, num_input := firstM.num_inputs,
                       num_output := lastM.num_outputs, rank := i,
                       chunks := chunksN, checkpoint_stop := cs } :: hs)

/-- DistributedPipeline.__init__ (lines 540-581): validates the chunk count
and checkpoint mode, then splits the graph, resolves the feeding partition
of every model input, computes the checkpoint cutoff and creates the
partition executors.  (check_pytorch_version depends on the external torch
installation; validate_graph is a no-op in the source.) -/
def DistributedPipelineInit (graph : PipelineModulesGraph) (chunks : Int)
    (checkpoint : String) : Except PipeError InitResult :=
  if chunks ≤ 0 then .error (.valueError "number of chunks must be positive integer")
  else if ¬(checkpoint = "always" ∨ checkpoint = "except_last" ∨ checkpoint = "never") then
    .error (.valueError "checkpoint is not one of always, except_last, or never")
  else
    match split_module graph with
    | .error e => .error e
    | .ok parts =>
      match graph.compute_output_users with
      | .error e => .error e
      | .ok (_, miu) =>
        match buildInputFeeds parts miu with
        | .error e => .error e
        | .ok input_feeds =>
          match checkpointStopOf checkpoint chunks.toNat with
          | none => .error .keyError
          | some cs =>
            match buildHandlers graph chunks.toNat cs 0 parts with
            | .error e => .error e
            | .ok handlers =>
              .ok { chunks := chunks.toNat, partitions := parts,
                    input_feeds := input_feeds, checkpoint_stop := cs,
                    handlers := handlers }

/-- The per-pair instantiation loop of create_sequence_pipeline
(lines 672-677): walks `zip balance devices` and instantiates the next
`num_layers` layers on the pair's remote device.  Indexing past the layer
list is the Python IndexError. -/
def instantiateBalance :
    List PipelineModule → Nat → List (Nat × String) →
    Except PipeError (List PipelineModule)
  | layers, _, [] => .ok layers
  | layers, index, (num_layers, remote_device) :: rest =>
    match (List.range' index num_layers).foldlM
        (fun (ls : List PipelineModule) li =>
          (match ls.get? li with
          | none => .error .indexError
          | some l =>
            match l.instantiate remote_device with
            | .error e => .error e
            | .ok l2 => .ok (ls.set li l2) : Except PipeError (List PipelineModule))) layers with
    | .error e => .error e
    | .ok layers2 => instantiateBalance layers2 (index + num_layers) rest

/-- create_sequence_pipeline (lines 659-681): instantiates the layers
according to balance/devices, builds the single-chain graph, feeds the
model input to the first layer, and constructs the pipeline.  Note that
the function performs no validation of the balance list. -/
def create_sequence_pipeline (layers : List PipelineModule) (balance : List Nat)
    (devices : List String) (chunks : Int) (checkpoint : String) :
    Except PipeError InitResult :=
  match instantiateBalance layers 0 (balance.zip devices) with
  | .error e => .error e
  | .ok layers2 =>
    let graph : PipelineModulesGraph := ⟨[], []⟩
    let graph := graph.add_sequence layers2
    match layers2.get? 0 with
    | none => .error .indexError
    | some l0 =>
      DistributedPipelineInit (graph.feed_model_input l0 0) chunks checkpoint

/-- The moving-denied TypeError of the source (lines 505-507). -/
def MOVING_DENIED : PipeError :=
  .typeError "denied to move parameters and buffers, because DistributedPipeline should manage device placement"

/-- Positional arguments accepted by torch `Module.to` and friends. -/
inductive TorchArg where
  | deviceArg : String → TorchArg
  | intArg : Int → TorchArg
  | strArg : String → TorchArg
  | tensorArg : Tensor → TorchArg
  | dtypeArg : String → TorchArg
  | boolArg : Bool → TorchArg
deriving DecidableEq, Repr

/-- isinstance(args[0], (torch.device, int, str)). -/
def isDeviceIntOrStr : TorchArg → Bool
  | .deviceArg _ => true
  | .intArg _ => true
  | .strArg _ => true
  | _ => false

/-- torch.is_tensor(args[0]). -/
def isTensorArg : TorchArg → Bool
  | .tensorArg _ => true
  | _ => false

/-- DistributedPipeline.cuda: always denied. -/
def DistributedPipeline.cuda (p : InitResult) (_device : Option TorchArg) :
    Except PipeError InitResult := .error MOVING_DENIED

/-- DistributedPipeline.cpu: always denied. -/
def DistributedPipeline.cpu (_p : InitResult) : Except PipeError InitResult :=
  .error MOVING_DENIED

/-- DistributedPipeline.to (lines 591-610): denies device or tensor
arguments (keyword or first positional), otherwise delegates to the default
nn.Module behaviour, which does not touch the partition structure. -/
def DistributedPipeline.to (p : InitResult) (args : List TorchArg)
    (kwargs : List (String × TorchArg)) : Except PipeError InitResult :=
  if kwargs.any (fun kv => kv.1 = "device") ∨ kwargs.any (fun kv => kv.1 = "tensor") then
    .error MOVING_DENIED
  else
    match args with
    | [] => .ok p
    | a :: _ =>
      if isDeviceIntOrStr a then .error MOVING_DENIED
      else if isTensorArg a then .error MOVING_DENIED
      else .ok p

/-- Index-ordering discipline of the graph (the condition the source's
validate_graph comment, lines 169-171, demands): every input slot is
assigned, every module source has a strictly smaller index than its
consumer, and every module has been instantiated on a worker/device. -/
def indexOrdered (g : PipelineModulesGraph) : Prop :=
  g.inputs.length = g.modules_list.length ∧
  (∀ i, i < g.inputs.length → (g.inputs.getD i none).isSome = true) ∧
  (∀ i, i < g.inputs.length → ∀ s ∈ (g.inputs.getD i none).getD [], s.1 < (i : Int)) ∧
  (∀ mo ∈ g.modules_list, mo.remote_device.isSome = true)

instance (g : PipelineModulesGraph) : Decidable (indexOrdered g) := by
  unfold indexOrdered; infer_instance

/-- The dependency relation of the claim's acyclicity hypothesis: module
`i` directly depends on module `j` when some input source of `i` names `j`
as producer. -/
def dependsOn (g : PipelineModulesGraph) (i j : Nat) : Prop :=
  ∃ l s, g.inputs.get? i = some (some l) ∧ s ∈ l ∧ s.1 = (j : Int)

/-- The claim's hypothesis, following the specification's wording: the
graph is acyclic when no module transitively depends on itself. -/
def acyclicSpec (g : PipelineModulesGraph) : Prop :=
  ∀ i, ¬ Relation.TransGen (dependsOn g) i i

/-- Claim C3: for every chunk count n ≥ 1 the checkpointing cutoff is n for
"always", n - 1 for "except_last" and 0 for "never"; a chunk uses the
checkpoint/recompute task pairing exactly when its index is below the
cutoff and the module is training, and in evaluation mode the effective
cutoff is 0, so no chunk is checkpointed. -/
theorem C3_checkpoint_cutoff (n : Nat) (hn : 1 ≤ n) (cs : Nat) (training : Bool)
    (c : Nat) :
    checkpointStopOf "always" n = some n ∧
    checkpointStopOf "except_last" n = some (n - 1) ∧
    checkpointStopOf "never" n = some 0 ∧
    (computeTaskKind cs training c = .checkpointed ↔ (training = true ∧ c < cs)) ∧
    (computeTaskKind cs training c = .direct ↔ ¬(training = true ∧ c < cs)) ∧
    (training = false → computeTaskKind cs training c = .direct) := by
  refine ⟨rfl, rfl, rfl, ?_, ?_, ?_⟩ <;>
    cases training <;> simp [computeTaskKind] <;> omega

/-- Witness for C3 at the boundary example of the specification:
chunks = 4 with mode "except_last" gives cutoff 3; chunk 2 is checkpointed,
chunk 3 is direct, and chunk 2 in evaluation mode is direct. -/
theorem C3_checkpoint_cutoff_witness :
    checkpointStopOf "except_last" 4 = some 3 ∧
    computeTaskKind 3 true 2 = .checkpointed ∧
    computeTaskKind 3 true 3 = .direct ∧
    computeTaskKind 3 false 2 = .direct :=
  ⟨(C3_checkpoint_cutoff 4 (by decide) 3 true 2).2.1,
   ((C3_checkpoint_cutoff 4 (by decide) 3 true 2).2.2.2.1).2 (by decide),
   ((C3_checkpoint_cutoff 4 (by decide) 3 true 3).2.2.2.2.1).2 (by decide),
   (C3_checkpoint_cutoff 4 (by decide) 3 false 2).2.2.2.2.2 rfl⟩

/-- Claim C5: feeding a slot that is already filled fails with the
assertion error and produces no updated record (so the stored tensor is
never overwritten), while feeding an empty slot stores the (possibly
device-moved) value there, touches nothing else, and returns the dependency
token. -/
theorem C5_feed_no_overwrite (r : DistributedPipelineRecord)
    (chunk input_idx : Nat) (input : Tensor) (row : List (Option Tensor))
    (hrow : r.tensors.get? chunk = some row) :
    (∀ t0, row.get? input_idx = some (some t0) →
      r.feed chunk input_idx input = .error .assertionError) ∧
    (row.get? input_idx = some none →
      r.feed chunk input_idx input =
        .ok ({ r with tensors := r.tensors.set chunk (row.set input_idx (some (movedInput r input))) },
             Tensor.phony (movedInput r input))) := by
  rw [List.get?_eq_getElem?] at hrow
  constructor
  · intro t0 h0
    rw [List.get?_eq_getElem?] at h0
    simp [DistributedPipelineRecord.feed, hrow, h0]
  · intro h0
    rw [List.get?_eq_getElem?] at h0
    simp [DistributedPipelineRecord.feed, hrow, h0, fork]

/-- Witness for C5: a concrete two-slot record where feeding the filled
slot fails with the assertion error and feeding the empty slot stores the
value. -/
theorem C5_feed_no_overwrite_witness :
    (DistributedPipelineRecord.feed
        ⟨[[some (.base 7 "cpu"), none]], [none], [[[], []]], [], 0, "cpu"⟩ 0 0 (.base 9 "cpu")
      = .error .assertionError) ∧
    (DistributedPipelineRecord.feed
        ⟨[[some (.base 7 "cpu"), none]], [none], [[[], []]], [], 0, "cpu"⟩ 0 1 (.base 9 "cpu")
      = .ok (⟨[[some (.base 7 "cpu"), some (.toDev (.base 9 "cpu") "cpu")]],
              [none], [[[], []]], [], 0, "cpu"⟩,
             .phony (.toDev (.base 9 "cpu") "cpu"))) := by
  constructor
  · exact (C5_feed_no_overwrite
      ⟨[[some (.base 7 "cpu"), none]], [none], [[[], []]], [], 0, "cpu"⟩
      0 0 (.base 9 "cpu") [some (.base 7 "cpu"), none] rfl).1 (.base 7 "cpu") rfl
  · have h := (C5_feed_no_overwrite
      ⟨[[some (.base 7 "cpu"), none]], [none], [[[], []]], [], 0, "cpu"⟩
      0 1 (.base 9 "cpu") [some (.base 7 "cpu"), none] rfl).2 rfl
    rw [h]
    decide

/-- Claim C8: cuda, cpu and any `to` call carrying a device (keyword or
positional device/int/str) or a tensor fail with the moving-denied error
and leave the pipeline untouched, while a `to` call without device and
tensor arguments (for example a pure dtype change) is permitted and
delegates, keeping the partition structure. -/
theorem C8_moving_denied (p : InitResult) (d : Option TorchArg)
    (args : List TorchArg) (kwargs : List (String × TorchArg)) :
    DistributedPipeline.cuda p d = .error MOVING_DENIED ∧
    DistributedPipeline.cpu p = .error MOVING_DENIED ∧
    ((kwargs.any (fun kv => kv.1 = "device") ∨ kwargs.any (fun kv => kv.1 = "tensor")) →
      DistributedPipeline.to p args kwargs = .error MOVING_DENIED) ∧
    (∀ a rest, args = a :: rest → (isDeviceIntOrStr a = true ∨ isTensorArg a = true) →
      DistributedPipeline.to p args kwargs = .error MOVING_DENIED) ∧
    ((¬(kwargs.any (fun kv => kv.1 = "device") ∨ kwargs.any (fun kv => kv.1 = "tensor"))) →
      (∀ a, args.head? = some a → isDeviceIntOrStr a = false ∧ isTensorArg a = false) →
      DistributedPipeline.to p args kwargs = .ok p) := by
  refine ⟨rfl, rfl, ?_, ?_, ?_⟩
  · intro h
    simp only [DistributedPipeline.to, if_pos h]
  · intro a rest hargs hdev
    subst hargs
    simp only [DistributedPipeline.to]
    split
    · rfl
    · rcases hdev with h | h <;> simp [h]
  · intro hkw hhd
    simp only [DistributedPipeline.to, if_neg hkw]
    cases args with
    | nil => rfl
    | cons a rest =>
      have := hhd a rfl
      simp [this.1, this.2]

/-- Witness for C8: on a concrete pipeline, cuda and a device-string `to`
are denied while a dtype-only `to` succeeds and keeps the pipeline. -/
theorem C8_moving_denied_witness :
    DistributedPipeline.cuda default none = .error MOVING_DENIED ∧
    DistributedPipeline.to default [.strArg "cuda:0"] [] = .error MOVING_DENIED ∧
    DistributedPipeline.to default [.dtypeArg "float16"] [] = .ok default :=
  ⟨(C8_moving_denied default none [] []).1,
   (C8_moving_denied default none [.strArg "cuda:0"] []).2.2.2.1 _ [] rfl (Or.inl rfl),
   (C8_moving_denied default none [.dtypeArg "float16"] []).2.2.2.2 (by decide)
     (by intro a ha; cases ha; exact ⟨rfl, rfl⟩)⟩

lemma exc_bind_ok (a : α) (k : α → Except PipeError β) :
    (Except.ok a >>= k) = k a := rfl

lemma exc_bind_error (e : PipeError) (k : α → Except PipeError β) :
    ((Except.error e : Except PipeError α) >>= k) = .error e := rfl

/-- Claim C2 (amended): the fence join is performed exactly when the chunk
is not the first one, the record has downstream consumers, and the
partition rank is positive; otherwise the record is returned unchanged.
(The source tests `rank > 0`, not entry-partition-ness; see the
counterexample for the difference.) -/
theorem C2_fence_condition (r : DistributedPipelineRecord) (chunk : Nat)
    (b : Batch) (phl : List (List Tensor))
    (hb : r.batches.get? chunk = some (some b))
    (hp : r.forwarded_phony.get? (chunk - 1) = some phl) :
    (¬(chunk ≠ 0 ∧ r.users ≠ [] ∧ 0 < r.rank) →
      PartitionHandler.fence r chunk = .ok r) ∧
    ((chunk ≠ 0 ∧ r.users ≠ [] ∧ 0 < r.rank) →
      PartitionHandler.fence r chunk =
        .ok { r with batches := r.batches.set chunk (some ⟨List.zipWith (fun t l => l.foldl Tensor.joined t) b.tensors phl, chunk⟩) }) := by
  rw [List.get?_eq_getElem?] at hb hp
  constructor
  · intro h
    simp [PartitionHandler.fence, h]
  · intro h
    simp [PartitionHandler.fence, h, hb, hp]

/-- Witness for C2 (amended): at a concrete record with rank 1, one
consumer and one forwarded token, the fence joins the batch tensor with the
token, and at chunk 0 it leaves the record unchanged. -/
theorem C2_fence_condition_witness :
    (PartitionHandler.fence
       ⟨[[some (.base 0 "cpu")], [some (.base 1 "cpu")]],
        [some ⟨[.base 10 "cpu"], 0⟩, some ⟨[.base 11 "cpu"], 1⟩],
        [[[.phony (.base 10 "cpu")]], [[]]], [(2, 1, 0)], 1, "cpu"⟩ 1
      = .ok ⟨[[some (.base 0 "cpu")], [some (.base 1 "cpu")]],
        [some ⟨[.base 10 "cpu"], 0⟩,
         some ⟨[.joined (.base 11 "cpu") (.phony (.base 10 "cpu"))], 1⟩],
        [[[.phony (.base 10 "cpu")]], [[]]], [(2, 1, 0)], 1, "cpu"⟩) ∧
    (PartitionHandler.fence
       ⟨[[some (.base 0 "cpu")], [some (.base 1 "cpu")]],
        [some ⟨[.base 10 "cpu"], 0⟩, some ⟨[.base 11 "cpu"], 1⟩],
        [[[.phony (.base 10 "cpu")]], [[]]], [(2, 1, 0)], 1, "cpu"⟩ 0
      = .ok ⟨[[some (.base 0 "cpu")], [some (.base 1 "cpu")]],
        [some ⟨[.base 10 "cpu"], 0⟩, some ⟨[.base 11 "cpu"], 1⟩],
        [[[.phony (.base 10 "cpu")]], [[]]], [(2, 1, 0)], 1, "cpu"⟩) := by
  constructor
  · have h := (C2_fence_condition
      ⟨[[some (.base 0 "cpu")], [some (.base 1 "cpu")]],
       [some ⟨[.base 10 "cpu"], 0⟩, some ⟨[.base 11 "cpu"], 1⟩],
       [[[.phony (.base 10 "cpu")]], [[]]], [(2, 1, 0)], 1, "cpu"⟩ 1
      ⟨[.base 11 "cpu"], 1⟩ [[.phony (.base 10 "cpu")]] rfl rfl).2
      (by refine ⟨by decide, by decide, by decide⟩)
    rw [h]; decide
  · exact (C2_fence_condition
      ⟨[[some (.base 0 "cpu")], [some (.base 1 "cpu")]],
       [some ⟨[.base 10 "cpu"], 0⟩, some ⟨[.base 11 "cpu"], 1⟩],
       [[[.phony (.base 10 "cpu")]], [[]]], [(2, 1, 0)], 1, "cpu"⟩ 0
      ⟨[.base 10 "cpu"], 0⟩ [[.phony (.base 10 "cpu")]] rfl rfl).1 (by simp)

/-- Graph used by the C2 counterexample: modules 0 and 1 are both fed by
the overall model input and module 2 consumes both of their outputs; all
modules sit on the same worker and device. -/
def gEntry : PipelineModulesGraph :=
  ⟨[⟨1, none, some ("w0", "cpu")⟩, ⟨1, none, some ("w0", "cpu")⟩,
    ⟨2, none, some ("w0", "cpu")⟩],
   [some [(-1, 0)], some [(-1, 1)], some [(0, 0), (1, 0)]]⟩

/-- Record of partition 1 of `gEntry` for a 2-chunk minibatch, as built by
the orchestrator (rank 1, users from the output-users of module 1) after
chunk 0 has been computed and forwarded (one dependency token recorded) and
chunk 1 has been assembled. -/
def rEntry : DistributedPipelineRecord :=
  ⟨[[some (.base 0 "cpu")], [some (.base 1 "cpu")]],
   [some ⟨[.base 10 "cpu"], 0⟩, some ⟨[.base 11 "cpu"], 1⟩],
   [[[.phony (.base 10 "cpu")]], [[]]], [(2, 1, 0)], 1, "cpu"⟩

/-- Counterexample to claim C2 as stated: partition 1 of `gEntry` is an
entry partition (the model-input-users list contains module 1, the
partition's only module), its record has positive rank and downstream
consumers, and the fence at chunk 1 does modify the chunk's batch — the
code guards the fence on `rank > 0`, not on not-being-an-entry-partition,
so the claim's "otherwise the batch is left unmodified" fails here. -/
theorem C2_fence_entry_counterexample :
    split_module gEntry = .ok [[0], [1], [2]] ∧
    gEntry.compute_output_users =
      .ok ([[(2, 0, 0)], [(2, 1, 0)], []], [(0, 0, 0), (1, 0, 1)]) ∧
    rEntry.rank = 1 ∧ rEntry.users = [(2, 1, 0)] ∧
    PartitionHandler.fence rEntry 1 ≠ .ok rEntry := by
  refine ⟨by decide, by decide, rfl, rfl, by decide⟩

/-- Claim C7 evaluation: create_sequence_pipeline performs no validation of
the balance list.  With two (not yet instantiated) layers and balance [1]
it fails only inside the partitioner with an AttributeError (the second
layer was never instantiated); with balance [3] it fails with an
IndexError while instantiating.  Neither failure is the eager
configuration error (ValueError) the claim requires. -/
theorem C7_no_balance_validation :
    create_sequence_pipeline [⟨1, none, none⟩, ⟨1, none, none⟩] [1]
        ["worker0/cpu"] 1 "except_last" = .error .attributeError ∧
    create_sequence_pipeline [⟨1, none, none⟩, ⟨1, none, none⟩] [3]
        ["worker0/cpu"] 1 "except_last" = .error .indexError ∧
    (∀ msg, create_sequence_pipeline [⟨1, none, none⟩, ⟨1, none, none⟩] [1]
        ["worker0/cpu"] 1 "except_last" ≠ .error (.valueError msg)) := by
  refine ⟨by decide, by decide, ?_⟩
  intro msg h
  have : create_sequence_pipeline [⟨1, none, none⟩, ⟨1, none, none⟩] [1]
      ["worker0/cpu"] 1 "except_last" = .error .attributeError := by decide
  rw [this] at h
  exact PipeError.noConfusion (Except.error.inj h)

lemma forwardCollect_keep (rs : List DistributedPipelineRecord) :
    ∀ (l : List Nat) (acc : Option (Except PipeError (Option Tensor))),
      (∀ i ∈ l, i ≠ rs.length - 1) →
      l.foldl (fun acc part_idx =>
          if part_idx = rs.length - 1 then
            some (runPipelineResult (rs.getD part_idx default))
          else acc) acc = acc := by
  intro l
  induction l with
  | nil => intro acc _; rfl
  | cons i rest ih =>
    intro acc h
    have hi : i ≠ rs.length - 1 := h i (List.mem_cons_self i rest)
    simp only [List.foldl_cons, if_neg hi]
    exact ih acc (fun j hj => h j (List.mem_cons_of_mem i hj))

/-- Claim C4: run_pipeline returns the gathered concatenation of all
chunks' outputs as a single tensor exactly when the record has no
downstream consumers, returns nothing when it has at least one, and
DistributedPipeline.forward returns the result produced by the
highest-index partition. -/
theorem C4_run_pipeline_return (r : DistributedPipelineRecord)
    (bs : List Batch) (records : List DistributedPipelineRecord)
    (hbs : allSome r.batches = some bs)
    (hone : (microbatchGather bs).tensors.length = 1)
    (hne : records ≠ []) :
    (r.users = [] → runPipelineResult r = .ok (microbatchGather bs).tensors.head?) ∧
    (r.users ≠ [] → runPipelineResult r = .ok none) ∧
    forwardCollect records =
      some (runPipelineResult (records.getD (records.length - 1) default)) := by
  refine ⟨?_, ?_, ?_⟩
  · intro h
    simp [runPipelineResult, h, hbs, hone]
  · intro h
    have : r.users.isEmpty = false := by
      cases hu : r.users with
      | nil => exact absurd hu h
      | cons a t => rfl
    simp [runPipelineResult, this]
  · obtain ⟨m, hm⟩ : ∃ m, records.length = m + 1 := by
      cases records with
      | nil => exact absurd rfl hne
      | cons a t => exact ⟨t.length, rfl⟩
    unfold forwardCollect
    rw [hm, List.range_succ, List.reverse_append, List.reverse_singleton]
    simp only [List.singleton_append, List.foldl_cons, hm]
    rw [if_pos (by omega : m = m + 1 - 1)]
    have hkeep := forwardCollect_keep records (List.range m).reverse
      (some (runPipelineResult (records.getD m default)))
      (by
        intro i hi
        rw [List.mem_reverse, List.mem_range] at hi
        omega)
    rw [hm] at hkeep
    rw [hkeep]
    norm_num

/-- Witness for C4: a one-partition pipeline whose terminal record yields
the gathered tensor, a record with a consumer yields nothing, and forward
picks the last record's result. -/
theorem C4_run_pipeline_return_witness :
    runPipelineResult ⟨[], [some ⟨[.base 0 "cpu"], 0⟩], [], [], 0, "cpu"⟩
      = .ok (microbatchGather [⟨[.base 0 "cpu"], 0⟩]).tensors.head? ∧
    runPipelineResult ⟨[], [some ⟨[.base 0 "cpu"], 0⟩], [], [(1, 0, 0)], 0, "cpu"⟩
      = .ok none ∧
    forwardCollect [⟨[], [some ⟨[.base 0 "cpu"], 0⟩], [], [], 0, "cpu"⟩]
      = some (runPipelineResult ⟨[], [some ⟨[.base 0 "cpu"], 0⟩], [], [], 0, "cpu"⟩) := by
  refine ⟨?_, ?_, ?_⟩
  · exact (C4_run_pipeline_return ⟨[], [some ⟨[.base 0 "cpu"], 0⟩], [], [], 0, "cpu"⟩
      [⟨[.base 0 "cpu"], 0⟩] [default] rfl (by decide) (by decide)).1 rfl
  · exact (C4_run_pipeline_return ⟨[], [some ⟨[.base 0 "cpu"], 0⟩], [], [(1, 0, 0)], 0, "cpu"⟩
      [⟨[.base 0 "cpu"], 0⟩] [default] rfl (by decide) (by decide)).2.1 (by decide)
  · exact (C4_run_pipeline_return ⟨[], [some ⟨[.base 0 "cpu"], 0⟩], [], [], 0, "cpu"⟩
      [⟨[.base 0 "cpu"], 0⟩] [⟨[], [some ⟨[.base 0 "cpu"], 0⟩], [], [], 0, "cpu"⟩]
      rfl (by decide) (by decide)).2.2


lemma forward_fold_ok_iff (chunk chunksN numIn : Nat) (ts : List Tensor) :
    ∀ (us : List (Nat × Nat × Nat)) (r : DistributedPipelineRecord),
      r.batches.get? chunk = some (some ⟨ts, chunk⟩) →
      r.forwarded_phony.length = chunksN →
      (∀ row ∈ r.forwarded_phony, row.length = numIn) →
      chunk < chunksN →
      (∀ x ∈ us, x.2.2 < ts.length) →
      ((∃ r2, us.foldlM (forwardStep chunk) r = .ok r2) ↔ ∀ x ∈ us, x.2.2 < numIn) := by
  intro us
  induction us with
  | nil =>
    intro r _ _ _ _ _
    simp only [List.foldlM_nil, List.not_mem_nil, false_implies, implies_true, iff_true]
    exact ⟨r, rfl⟩
  | cons x rest ih =>
    intro r hb hlen hrows hchunk houts
    have hbE := hb
    rw [List.get?_eq_getElem?] at hbE
    have hvx : x.2.2 < ts.length := houts x (List.mem_cons_self x rest)
    obtain ⟨v, hv⟩ : ∃ v, ts.get? x.2.2 = some v := ⟨_, List.get?_eq_get hvx⟩
    rw [List.get?_eq_getElem?] at hv
    obtain ⟨row, hrow⟩ : ∃ row, r.forwarded_phony.get? chunk = some row :=
      ⟨_, List.get?_eq_get (by omega)⟩
    have hrowmem : row ∈ r.forwarded_phony := List.get?_mem hrow
    have hrowlen : row.length = numIn := hrows row hrowmem
    rw [List.get?_eq_getElem?] at hrow
    by_cases hx : x.2.2 < numIn
    · obtain ⟨cell, hcell⟩ : ∃ cell, row.get? x.2.2 = some cell :=
        ⟨_, List.get?_eq_get (by omega)⟩
      rw [List.get?_eq_getElem?] at hcell
      have hstep : forwardStep chunk r x =
          .ok { r with forwarded_phony :=
                  r.forwarded_phony.set chunk (row.set x.2.2 (cell ++ [Tensor.phony v])) } := by
        simp [forwardStep, hbE, hv, hrow, hcell]
      rw [List.foldlM_cons, hstep, exc_bind_ok]
      have hres := ih { r with forwarded_phony :=
            r.forwarded_phony.set chunk (row.set x.2.2 (cell ++ [Tensor.phony v])) }
        hb (by simpa using hlen)
        (by
          intro row2 h2
          rcases List.mem_or_eq_of_mem_set h2 with h2 | h2
          · exact hrows row2 h2
          · rw [h2, List.length_set]; exact hrowlen)
        hchunk
        (fun y hy => houts y (List.mem_cons_of_mem x hy))
      rw [hres]
      simp [hx]
    · have hcell : row.get? x.2.2 = none := List.get?_eq_none.2 (by omega)
      rw [List.get?_eq_getElem?] at hcell
      have hstep : forwardStep chunk r x = .error .indexError := by
        simp [forwardStep, hbE, hv, hrow, hcell]
      rw [List.foldlM_cons, hstep, exc_bind_error]
      refine iff_of_false ?_ ?_
      · rintro ⟨r2, hr2⟩
        cases hr2
      · intro hall
        exact absurd (hall x (List.mem_cons_self x rest)) hx

/-- Claim C10: the dependency-token table is allocated with exactly
`num_input` inner lists per chunk, and forward_results (which appends
tokens at the producing output slot) stays in bounds exactly when every
output slot referenced by a downstream consumer is strictly below the
partition's input arity. -/
theorem C10_forwarded_phony_bounds (h : PartitionHandlerInfo)
    (users : List (Nat × Nat × Nat)) (chunk : Nat) (ts : List Tensor)
    (hchunk : chunk < h.chunks)
    (houts : ∀ x ∈ users, x.2.2 < ts.length) :
    ((PartitionHandler.make_pipeline_record h users).forwarded_phony.length = h.chunks ∧
      ∀ row ∈ (PartitionHandler.make_pipeline_record h users).forwarded_phony,
        row.length = h.num_input) ∧
    ((∃ r2, PartitionHandler.forward_results chunk
          { PartitionHandler.make_pipeline_record h users with
            batches := (PartitionHandler.make_pipeline_record h users).batches.set chunk (some ⟨ts, chunk⟩) }
        = .ok r2)
      ↔ ∀ x ∈ users, x.2.2 < h.num_input) := by
  constructor
  · constructor
    · simp [PartitionHandler.make_pipeline_record]
    · intro row hrow
      have := List.eq_of_mem_replicate hrow
      rw [this, List.length_replicate]
  · unfold PartitionHandler.forward_results
    exact forward_fold_ok_iff chunk h.chunks h.num_input ts users
      { PartitionHandler.make_pipeline_record h users with
        batches := (PartitionHandler.make_pipeline_record h users).batches.set chunk (some ⟨ts, chunk⟩) }
      (by
        show ((List.replicate h.chunks (none : Option Batch)).set chunk (some ⟨ts, chunk⟩)).get? chunk
          = some (some ⟨ts, chunk⟩)
        rw [List.get?_eq_getElem?, List.getElem?_set_self (by simpa using hchunk)])
      (by simp [PartitionHandler.make_pipeline_record])
      (by
        intro row hrow
        have := List.eq_of_mem_replicate hrow
        rw [this, List.length_replicate])
      hchunk
      houts

/-- Witness for C10: a two-input partition with one consumer of output
slot 1 allocates a 2-by-2 token table and forward_results succeeds, as slot
1 is below the input arity 2. -/
theorem C10_forwarded_phony_bounds_witness :
    ((PartitionHandler.make_pipeline_record ⟨"cpu", 2, some 2, 0, 2, 0⟩ [(5, 0, 1)]).forwarded_phony.length = 2 ∧
      ∀ row ∈ (PartitionHandler.make_pipeline_record ⟨"cpu", 2, some 2, 0, 2, 0⟩ [(5, 0, 1)]).forwarded_phony,
        row.length = 2) ∧
    (∃ r2, PartitionHandler.forward_results 0
          { PartitionHandler.make_pipeline_record ⟨"cpu", 2, some 2, 0, 2, 0⟩ [(5, 0, 1)] with
            batches := (PartitionHandler.make_pipeline_record ⟨"cpu", 2, some 2, 0, 2, 0⟩ [(5, 0, 1)]).batches.set 0
              (some ⟨[.base 0 "cpu", .base 1 "cpu"], 0⟩) }
        = .ok r2) := by
  have hmain := C10_forwarded_phony_bounds ⟨"cpu", 2, some 2, 0, 2, 0⟩ [(5, 0, 1)] 0
    [.base 0 "cpu", .base 1 "cpu"] (by decide) (by decide)
  exact ⟨hmain.1, hmain.2.mpr (by decide)⟩

lemma couInner_no_valueError (i : Nat) :
    ∀ (l : List (Int × Nat)) (j : Nat) acc e,
      couInner i j l acc = .error e → e.isValueError = false := by
  intro l
  induction l with
  | nil =>
    intro j acc e h
    obtain ⟨ou, miu⟩ := acc
    cases h
  | cons hd tl ih =>
    intro j acc e h
    obtain ⟨ou, miu⟩ := acc
    obtain ⟨src, slot⟩ := hd
    rw [couInner] at h
    split at h
    · split at h
      · cases h; rfl
      · exact ih _ _ _ h
    · exact ih _ _ _ h

lemma couOuter_no_valueError :
    ∀ (l : List (Option (List (Int × Nat)))) (i : Nat) acc e,
      couOuter i l acc = .error e → e.isValueError = false := by
  intro l
  induction l with
  | nil => intro i acc e h; cases h
  | cons hd tl ih =>
    intro i acc e h
    cases hd with
    | none => cases h; rfl
    | some v =>
      rw [couOuter] at h
      split at h
      · cases h
        exact couInner_no_valueError i v 0 acc _ (by assumption)
      · exact ih _ _ _ h

lemma chainNext_no_valueError (g : PipelineModulesGraph)
    (ou : List (List (Nat × Nat × Nat))) (cur : Nat) (e : PipeError)
    (h : chainNext g ou cur = .error e) : e.isValueError = false := by
  rw [chainNext] at h
  repeat' split at h
  any_goals (cases h; rfl)
  all_goals cases h

lemma buildChain_no_valueError (g : PipelineModulesGraph)
    (ou : List (List (Nat × Nat × Nat))) :
    ∀ (fuel cur : Nat) (used : List Bool) (acc : List Nat) (e : PipeError),
      buildChain g ou fuel cur used acc = .error e → e.isValueError = false := by
  intro fuel
  induction fuel with
  | zero => intro cur used acc e h; cases h; rfl
  | succ n ih =>
    intro cur used acc e h
    rw [buildChain] at h
    split at h
    · cases h; rfl
    · cases h; rfl
    · split at h
      · cases h
        exact chainNext_no_valueError g ou cur _ (by assumption)
      · cases h
      · exact ih _ _ _ _ h

lemma splitOuter_no_valueError (g : PipelineModulesGraph)
    (ou : List (List (Nat × Nat × Nat))) :
    ∀ (pending : List Nat) (used : List Bool) (parts : List (List Nat)) (e : PipeError),
      splitOuter g ou pending used parts = .error e → e.isValueError = false := by
  intro pending
  induction pending with
  | nil => intro used parts e h; cases h
  | cons idx rest ih =>
    intro used parts e h
    rw [splitOuter] at h
    split at h
    · cases h; rfl
    · exact ih _ _ _ h
    · split at h
      · cases h
        exact buildChain_no_valueError g ou _ _ _ _ _ (by assumption)
      · exact ih _ _ _ h

lemma split_module_no_valueError (g : PipelineModulesGraph) (e : PipeError)
    (h : split_module g = .error e) : e.isValueError = false := by
  rw [split_module] at h
  split at h
  · cases h
    exact couOuter_no_valueError _ _ _ _ (by assumption)
  · split at h
    · cases h
      exact splitOuter_no_valueError g _ _ _ _ _ (by assumption)
    · cases h

lemma buildInputFeeds_no_valueError (parts : List (List Nat)) :
    ∀ (l : List (Nat × Nat × Nat)) (e : PipeError),
      buildInputFeeds parts l = .error e → e.isValueError = false := by
  intro l
  induction l with
  | nil => intro e h; cases h
  | cons x rest ih =>
    intro e h
    rw [buildInputFeeds] at h
    split at h
    · cases h; rfl
    · split at h
      · cases h
        exact ih _ (by assumption)
      · cases h

lemma buildHandlers_no_valueError (g : PipelineModulesGraph) (chunksN cs : Nat) :
    ∀ (l : List (List Nat)) (i : Nat) (e : PipeError),
      buildHandlers g chunksN cs i l = .error e → e.isValueError = false := by
  intro l
  induction l with
  | nil => intro i e h; cases h
  | cons p rest ih =>
    intro i e h
    rw [buildHandlers] at h
    split at h
    · cases h; rfl
    · split at h
      · cases h; rfl
      · split at h
        · cases h; rfl
        · split at h
          · cases h; rfl
          · split at h
            · cases h; rfl
            · split at h
              · cases h
                exact ih _ _ (by assumption)
              · cases h

/-- Claim C6: constructing the pipeline raises a ValueError exactly when
the chunk count is nonpositive or the checkpoint mode is not one of the
three recognized values, and the error is raised eagerly, before the graph
is split or any partition executor is created (the nonpositive-chunks error
fires for every graph, even one the partitioner would reject). -/
theorem C6_init_validation (g : PipelineModulesGraph) (chunks : Int)
    (checkpoint : String) :
    ((∃ msg, DistributedPipelineInit g chunks checkpoint = .error (.valueError msg)) ↔
      (chunks ≤ 0 ∨
        ¬(checkpoint = "always" ∨ checkpoint = "except_last" ∨ checkpoint = "never"))) ∧
    (chunks ≤ 0 →
      DistributedPipelineInit g chunks checkpoint =
        .error (.valueError "number of chunks must be positive integer")) := by
  constructor
  · constructor
    · rintro ⟨msg, hmsg⟩
      by_cases h1 : chunks ≤ 0
      · exact Or.inl h1
      by_cases h2 : checkpoint = "always" ∨ checkpoint = "except_last" ∨ checkpoint = "never"
      · exfalso
        rw [DistributedPipelineInit, if_neg h1, if_neg (not_not_intro h2)] at hmsg
        split at hmsg
        · rename_i e2 he2
          injection hmsg with h3
          have := split_module_no_valueError g e2 he2
          rw [h3] at this
          cases this
        · split at hmsg
          · rename_i e2 he2
            injection hmsg with h3
            have := couOuter_no_valueError _ _ _ e2 he2
            rw [h3] at this
            cases this
          · split at hmsg
            · rename_i e2 he2
              injection hmsg with h3
              have := buildInputFeeds_no_valueError _ _ e2 he2
              rw [h3] at this
              cases this
            · split at hmsg
              · injection hmsg with h3
                cases h3
              · split at hmsg
                · rename_i e2 he2
                  injection hmsg with h3
                  have := buildHandlers_no_valueError _ _ _ _ _ e2 he2
                  rw [h3] at this
                  cases this
                · cases hmsg
      · exact Or.inr h2
    · intro h
      rcases h with h | h
      · exact ⟨"number of chunks must be positive integer",
          by rw [DistributedPipelineInit, if_pos h]⟩
      · by_cases h1 : chunks ≤ 0
        · exact ⟨"number of chunks must be positive integer",
            by rw [DistributedPipelineInit, if_pos h1]⟩
        · exact ⟨"checkpoint is not one of always, except_last, or never",
            by rw [DistributedPipelineInit, if_neg h1, if_pos h]⟩
  · intro h
    rw [DistributedPipelineInit, if_pos h]

/-- Witness for C6: chunk count 0 is rejected eagerly on the empty graph,
and an unknown checkpoint mode yields a ValueError. -/
theorem C6_init_validation_witness :
    DistributedPipelineInit ⟨[], []⟩ 0 "always" =
      .error (.valueError "number of chunks must be positive integer") ∧
    (∃ msg, DistributedPipelineInit ⟨[], []⟩ 2 "sometimes" = .error (.valueError msg)) :=
  ⟨(C6_init_validation ⟨[], []⟩ 0 "always").2 (by decide),
   (C6_init_validation ⟨[], []⟩ 2 "sometimes").1.2 (Or.inr (by decide))⟩

lemma getD_of_get? {α : Type} (l : List α) (n : Nat) (a d : α)
    (h : l.get? n = some a) : l.getD n d = a := by
  rw [List.getD_eq_getElem?_getD, ← List.get?_eq_getElem?, h]
  rfl

lemma getDlist_set {α : Type} (l : List (List α)) (i : Nat) (a : List α)
    (c : Nat) (h : i < l.length) :
    (l.set i a).getD c [] = if i = c then a else l.getD c [] := by
  by_cases hic : i = c
  · subst hic
    rw [if_pos rfl, List.getD_eq_getElem?_getD, List.getElem?_set_self h]
    rfl
  · rw [if_neg hic, List.getD_eq_getElem?_getD, List.getElem?_set_ne hic,
      List.getD_eq_getElem?_getD]

lemma getD_replicate_nil {α : Type} (m c : Nat) :
    (List.replicate m ([] : List α)).getD c [] = [] := by
  rw [List.getD_eq_getElem?_getD, List.getElem?_replicate]
  split <;> rfl

/-- Validity of an output-users entry: `x ∈ output_users[c]` means module
`x.1` really lists producer `c` at output slot `x.2.2` among its input
sources. -/
def ouEntryValid (g : PipelineModulesGraph) (c : Nat) (x : Nat × Nat × Nat) : Prop :=
  ∃ l, g.inputs.get? x.1 = some (some l) ∧ ((c : Int), x.2.2) ∈ l

/-- Validity of a model-input-users entry: module `x.1` has an input
source with a negative producer index (the overall model input). -/
def miuEntryValid (g : PipelineModulesGraph) (x : Nat × Nat × Nat) : Prop :=
  ∃ l src, g.inputs.get? x.1 = some (some l) ∧ (src, x.2.2) ∈ l ∧ src < 0

lemma couInner_spec (g : PipelineModulesGraph) (i : Nat) (L : List (Int × Nat))
    (hL : g.inputs.get? i = some (some L)) :
    ∀ (l : List (Int × Nat)) (j : Nat) (ou miu ou2 miu2),
      (∀ s ∈ l, s ∈ L) →
      couInner i j l (ou, miu) = .ok (ou2, miu2) →
      ou2.length = ou.length ∧
      (∀ c x, x ∈ ou2.getD c [] → x ∈ ou.getD c [] ∨ ouEntryValid g c x) ∧
      (∀ x ∈ miu2, x ∈ miu ∨ miuEntryValid g x) := by
  intro l
  induction l with
  | nil =>
    intro j ou miu ou2 miu2 _ h
    cases h
    exact ⟨rfl, fun c x hx => Or.inl hx, fun x hx => Or.inl hx⟩
  | cons hd tl ih =>
    intro j ou miu ou2 miu2 hmem h
    obtain ⟨src, slot⟩ := hd
    rw [couInner] at h
    split at h
    · rename_i hsrc
      revert h
      cases happ : appendAt ou src.toNat (i, j, slot) with
      | none => intro h; cases h
      | some ou3 =>
        intro h
        rw [appendAt] at happ
        revert happ
        cases hcell : ou.get? src.toNat with
        | none => intro happ; cases happ
        | some cell =>
          intro happ
          injection happ with happ
          have hilt : src.toNat < ou.length := by
            have := List.get?_eq_some.1 hcell
            exact this.1
          have hrec := ih (j + 1) ou3 miu ou2 miu2
            (fun s hs => hmem s (List.mem_cons_of_mem _ hs)) h
          refine ⟨by rw [hrec.1, ← happ, List.length_set], ?_, hrec.2.2⟩
          intro c x hx
          rcases hrec.2.1 c x hx with hx2 | hx2
          · rw [← happ, getDlist_set ou _ _ _ hilt] at hx2
            by_cases hc : src.toNat = c
            · rw [if_pos hc] at hx2
              rcases List.mem_append.1 hx2 with hx3 | hx3
              · left
                rw [← hc]
                exact (getD_of_get? ou src.toNat cell [] hcell) ▸ hx3
              · right
                have hx4 : x = (i, j, slot) := List.mem_singleton.1 hx3
                subst hx4
                refine ⟨L, hL, ?_⟩
                have : ((src.toNat : Int), slot) = (src, slot) := by
                  rw [Int.toNat_of_nonneg hsrc]
                rw [← hc, this]
                exact hmem (src, slot) (List.mem_cons_self _ _)
            · rw [if_neg hc] at hx2
              exact Or.inl hx2
          · exact Or.inr hx2
    · rename_i hsrc
      have hrec := ih (j + 1) ou (miu ++ [(i, j, slot)]) ou2 miu2
        (fun s hs => hmem s (List.mem_cons_of_mem _ hs)) h
      refine ⟨hrec.1, hrec.2.1, ?_⟩
      intro x hx
      rcases hrec.2.2 x hx with hx2 | hx2
      · rcases List.mem_append.1 hx2 with hx3 | hx3
        · exact Or.inl hx3
        · right
          have hx4 : x = (i, j, slot) := List.mem_singleton.1 hx3
          subst hx4
          refine ⟨L, src, hL, hmem (src, slot) (List.mem_cons_self _ _), by omega⟩
      · exact Or.inr hx2

lemma couInner_ok (i : Nat) :
    ∀ (l : List (Int × Nat)) (j : Nat) (ou : List (List (Nat × Nat × Nat)))
      (miu : List (Nat × Nat × Nat)),
      (∀ s ∈ l, 0 ≤ s.1 → s.1.toNat < ou.length) →
      ∃ res, couInner i j l (ou, miu) = .ok res := by
  intro l
  induction l with
  | nil => intro j ou miu _; exact ⟨(ou, miu), rfl⟩
  | cons hd tl ih =>
    intro j ou miu hb
    obtain ⟨src, slot⟩ := hd
    rw [couInner]
    split
    · rename_i hsrc
      have hlt : src.toNat < ou.length := hb (src, slot) (List.mem_cons_self _ _) hsrc
      obtain ⟨cell, hcell⟩ : ∃ cell, ou.get? src.toNat = some cell :=
        ⟨_, List.get?_eq_get hlt⟩
      rw [appendAt, hcell]
      exact ih (j + 1) _ miu (fun s hs hp => by
        rw [List.length_set]
        exact hb s (List.mem_cons_of_mem _ hs) hp)
    · exact ih (j + 1) ou _ (fun s hs hp => hb s (List.mem_cons_of_mem _ hs) hp)

lemma couOuter_spec (g : PipelineModulesGraph) :
    ∀ (l : List (Option (List (Int × Nat)))) (i : Nat)
      (ou miu ou2 miu2),
      (∀ k opt, l.get? k = some opt → g.inputs.get? (i + k) = some opt) →
      couOuter i l (ou, miu) = .ok (ou2, miu2) →
      ou2.length = ou.length ∧
      (∀ c x, x ∈ ou2.getD c [] → x ∈ ou.getD c [] ∨ ouEntryValid g c x) ∧
      (∀ x ∈ miu2, x ∈ miu ∨ miuEntryValid g x) := by
  intro l
  induction l with
  | nil =>
    intro i ou miu ou2 miu2 _ h
    cases h
    exact ⟨rfl, fun c x hx => Or.inl hx, fun x hx => Or.inl hx⟩
  | cons hd tl ih =>
    intro i ou miu ou2 miu2 hlink h
    cases hd with
    | none => cases h
    | some v =>
      rw [couOuter] at h
      split at h
      · cases h
      · rename_i acc3 hacc3
        obtain ⟨ou3, miu3⟩ := acc3
        have hLi : g.inputs.get? i = some (some v) := by
          have := hlink 0 (some v) rfl
          simpa using this
        have h1 := couInner_spec g i v hLi v 0 ou miu ou3 miu3 (fun s hs => hs) hacc3
        have h2 := ih (i + 1) ou3 miu3 ou2 miu2
          (fun k opt hk => by
            have := hlink (k + 1) opt (by simpa using hk)
            rw [show i + 1 + k = i + (k + 1) by omega]
            exact this) h
        refine ⟨h2.1.trans h1.1, ?_, ?_⟩
        · intro c x hx
          rcases h2.2.1 c x hx with hx2 | hx2
          · exact h1.2.1 c x hx2
          · exact Or.inr hx2
        · intro x hx
          rcases h2.2.2 x hx with hx2 | hx2
          · exact h1.2.2 x hx2
          · exact Or.inr hx2

lemma couOuter_ok (g : PipelineModulesGraph) (hord : indexOrdered g) :
    ∀ (l : List (Option (List (Int × Nat)))) (i : Nat)
      (ou : List (List (Nat × Nat × Nat))) (miu : List (Nat × Nat × Nat)),
      (∀ k opt, l.get? k = some opt → g.inputs.get? (i + k) = some opt) →
      ou.length = g.modules_list.length →
      ∃ res, couOuter i l (ou, miu) = .ok res := by
  obtain ⟨hlen, hsome, hlt, _⟩ := hord
  intro l
  induction l with
  | nil => intro i ou miu _ _; exact ⟨(ou, miu), rfl⟩
  | cons hd tl ih =>
    intro i ou miu hlink hou
    have hGi : g.inputs.get? i = some hd := by
      have := hlink 0 hd rfl
      simpa using this
    have hilt : i < g.inputs.length := (List.get?_eq_some.1 hGi).1
    have hD : g.inputs.getD i none = hd := getD_of_get? _ _ _ _ hGi
    cases hd with
    | none =>
      have := hsome i hilt
      rw [hD] at this
      cases this
    | some v =>
      rw [couOuter]
      have hvb : ∀ s ∈ v, 0 ≤ s.1 → s.1.toNat < ou.length := by
        intro s hs hp
        have := hlt i hilt s (by rw [hD]; exact hs)
        rw [hou, ← hlen]
        omega
      obtain ⟨res3, hres3⟩ := couInner_ok i v 0 ou miu hvb
      rw [hres3]
      obtain ⟨ou3, miu3⟩ := res3
      have h1 := couInner_spec g i v hGi v 0 ou miu ou3 miu3 (fun s hs => hs) hres3
      exact ih (i + 1) ou3 miu3
        (fun k opt hk => by
          have := hlink (k + 1) opt (by simpa using hk)
          rw [show i + 1 + k = i + (k + 1) by omega]
          exact this)
        (h1.1.trans hou)

lemma compute_output_users_spec (g : PipelineModulesGraph) (hord : indexOrdered g) :
    ∃ ou miu, g.compute_output_users = .ok (ou, miu) ∧
      ou.length = g.modules_list.length ∧
      (∀ c x, x ∈ ou.getD c [] → ouEntryValid g c x) ∧
      (∀ x ∈ miu, miuEntryValid g x) := by
  obtain ⟨res, hres⟩ := couOuter_ok g hord g.inputs 0
    (List.replicate g.modules_list.length []) []
    (fun k opt hk => by simpa using hk) (List.length_replicate _ _)
  obtain ⟨ou, miu⟩ := res
  have hspec := couOuter_spec g g.inputs 0 _ _ ou miu
    (fun k opt hk => by simpa using hk) hres
  refine ⟨ou, miu, hres, by rw [hspec.1, List.length_replicate], ?_, ?_⟩
  · intro c x hx
    rcases hspec.2.1 c x hx with hx2 | hx2
    · rw [getD_replicate_nil] at hx2
      cases hx2
    · exact hx2
  · intro x hx
    rcases hspec.2.2 x hx with hx2 | hx2
    · cases hx2
    · exact hx2

/-- The chain-extension relation of the partitioner: from module `a` the
while-loop of _split_module moves on to module `b`. -/
def canExtend (g : PipelineModulesGraph) (ou : List (List (Nat × Nat × Nat)))
    (a b : Nat) : Prop :=
  chainNext g ou a = .ok (some b)

/-- The extension rule spelled out, as the claim states it: module `a` has
a single non-tuple output with exactly one consumer, that consumer is `b`,
the only input source of `b` is output slot 0 of `a`, and both modules are
instantiated on the same worker and device. -/
def extensionRule (g : PipelineModulesGraph) (ou : List (List (Nat × Nat × Nat)))
    (a b : Nat) : Prop :=
  (∃ j k, ou.get? a = some [(b, j, k)]) ∧
  (∃ curM, g.modules_list.get? a = some curM ∧ curM.num_outputs = none) ∧
  g.inputs.get? b = some (some [((a : Int), 0)]) ∧
  (∃ od curM nextM, g.modules_list.get? a = some curM ∧
    g.modules_list.get? b = some nextM ∧
    curM.remote_device = some od ∧ nextM.remote_device = some od)

lemma chainNext_eq_some_iff (g : PipelineModulesGraph)
    (ou : List (List (Nat × Nat × Nat))) (a b : Nat) :
    chainNext g ou a = .ok (some b) ↔ extensionRule g ou a b := by
  constructor
  · intro h
    rw [chainNext] at h
    cases hu : ou.get? a with
    | none => rw [hu] at h; simp at h
    | some users =>
      rw [hu] at h
      dsimp only at h
      by_cases h1 : users.length ≠ 1
      · rw [if_pos h1] at h
        exact Option.noConfusion (Except.ok.inj h)
      · rw [if_neg h1] at h
        cases hm : g.modules_list.get? a with
        | none => rw [hm] at h; simp at h
        | some curM =>
          rw [hm] at h
          dsimp only at h
          by_cases h2 : curM.num_outputs.isSome
          · rw [if_pos h2] at h
            exact Option.noConfusion (Except.ok.inj h)
          · rw [if_neg h2] at h
            cases hh : users.head? with
            | none => rw [hh] at h; simp at h
            | some u =>
              rw [hh] at h
              dsimp only at h
              cases hin : g.inputs.get? u.1 with
              | none => rw [hin] at h; simp at h
              | some nextInp =>
                rw [hin] at h
                dsimp only at h
                by_cases h3 : nextInp ≠ some [((a : Int), 0)]
                · rw [if_pos h3] at h
                  exact Option.noConfusion (Except.ok.inj h)
                · rw [if_neg h3] at h
                  cases hm2 : g.modules_list.get? u.1 with
                  | none => rw [hm2] at h; simp at h
                  | some nextM =>
                    rw [hm2] at h
                    dsimp only at h
                    cases hnd : nextM.remote_device with
                    | none => rw [hnd] at h; simp at h
                    | some nd =>
                      cases hcd : curM.remote_device with
                      | none => rw [hnd, hcd] at h; simp at h
                      | some cd =>
                        rw [hnd, hcd] at h
                        dsimp only at h
                        by_cases h4 : nd.1 ≠ cd.1
                        · rw [if_pos h4] at h
                          exact Option.noConfusion (Except.ok.inj h)
                        · rw [if_neg h4] at h
                          by_cases h5 : nd.2 ≠ cd.2
                          · rw [if_pos h5] at h
                            exact Option.noConfusion (Except.ok.inj h)
                          · rw [if_neg h5] at h
                            have hub : u.1 = b := Option.some.inj (Except.ok.inj h)
                            have hlen1 : users.length = 1 := by omega
                            obtain ⟨u2, hu2⟩ := List.length_eq_one.1 hlen1
                            have huu : u2 = u := by
                              rw [hu2] at hh
                              exact Option.some.inj hh
                            rw [huu] at hu2
                            have hndcd : nd = cd :=
                              Prod.ext (not_ne_iff.1 h4) (not_ne_iff.1 h5)
                            have h3e : nextInp = some [((a : Int), 0)] := not_ne_iff.1 h3
                            refine ⟨⟨u.2.1, u.2.2, ?_⟩, ⟨curM, hm, ?_⟩, ?_, ⟨cd, curM, nextM, hm, ?_, hcd, ?_⟩⟩
                            · rw [hu, hu2, ← hub]
                            · exact Option.not_isSome_iff_eq_none.1 (by simpa using h2)
                            · rw [← hub, hin, h3e]
                            · rw [← hub, hm2]
                            · rw [hnd, hndcd]
  · rintro ⟨⟨j, k, h1⟩, ⟨curM, hm, h2⟩, h3, ⟨od, curM2, nextM, hm2, hm3, h4, h5⟩⟩
    have hcc : curM2 = curM := Option.some.inj (hm2.symm.trans hm)
    subst hcc
    rw [List.get?_eq_getElem?] at h1 hm h3 hm3
    simp [chainNext, h1, hm, h2, h3, hm3, h4, h5]

lemma canExtend_inputs (g : PipelineModulesGraph)
    (ou : List (List (Nat × Nat × Nat))) (a b : Nat)
    (h : canExtend g ou a b) : g.inputs.get? b = some (some [((a : Int), 0)]) :=
  ((chainNext_eq_some_iff g ou a b).1 h).2.2.1

lemma canExtend_lt (g : PipelineModulesGraph)
    (ou : List (List (Nat × Nat × Nat))) (a b : Nat)
    (hord : indexOrdered g) (h : canExtend g ou a b) : a < b := by
  have hin := canExtend_inputs g ou a b h
  have hblt : b < g.inputs.length := (List.get?_eq_some.1 hin).1
  have hD : g.inputs.getD b none = some [((a : Int), 0)] := getD_of_get? _ _ _ _ hin
  have h2 := hord.2.2.1 b hblt ((a : Int), 0) (by rw [hD]; exact List.mem_singleton_self _)
  have h3 : (a : Int) < (b : Int) := h2
  exact_mod_cast h3

lemma canExtend_inj (g : PipelineModulesGraph)
    (ou : List (List (Nat × Nat × Nat))) (a a2 b : Nat)
    (h : canExtend g ou a b) (h2 : canExtend g ou a2 b) : a = a2 := by
  have i1 := canExtend_inputs g ou a b h
  have i2 := canExtend_inputs g ou a2 b h2
  rw [i1] at i2
  have h3 : ((a : Int), (0 : Nat)) = ((a2 : Int), (0 : Nat)) := by
    have := Option.some.inj (Option.some.inj i2)
    exact (List.cons.inj this).1
  have h4 : (a : Int) = (a2 : Int) := congrArg Prod.fst h3
  exact_mod_cast h4

/-- The output-users table agrees with the graph: it has one entry list
per module and every recorded consumer is genuine. -/
def ouSpec (g : PipelineModulesGraph) (ou : List (List (Nat × Nat × Nat))) : Prop :=
  ou.length = g.modules_list.length ∧
  ∀ c x, x ∈ ou.getD c [] → ouEntryValid g c x

lemma chainNext_ok (g : PipelineModulesGraph)
    (ou : List (List (Nat × Nat × Nat))) (cur : Nat)
    (hord : indexOrdered g) (hou : ouSpec g ou)
    (hcur : cur < g.modules_list.length) :
    ∃ r, chainNext g ou cur = .ok r := by
  obtain ⟨hlen, _, _, hdev⟩ := hord
  rw [chainNext]
  obtain ⟨users, hu⟩ : ∃ users, ou.get? cur = some users :=
    ⟨_, List.get?_eq_get (by rw [hou.1]; exact hcur)⟩
  rw [hu]
  dsimp only
  by_cases h1 : users.length ≠ 1
  · rw [if_pos h1]; exact ⟨none, rfl⟩
  · rw [if_neg h1]
    obtain ⟨curM, hm⟩ : ∃ curM, g.modules_list.get? cur = some curM :=
      ⟨_, List.get?_eq_get hcur⟩
    rw [hm]
    dsimp only
    by_cases h2 : curM.num_outputs.isSome
    · rw [if_pos h2]; exact ⟨none, rfl⟩
    · rw [if_neg h2]
      obtain ⟨u, hh⟩ : ∃ u, users.head? = some u := by
        cases users with
        | nil => simp at h1
        | cons a t => exact ⟨a, rfl⟩
      rw [hh]
      dsimp only
      have humem : u ∈ ou.getD cur [] := by
        rw [getD_of_get? _ _ _ _ hu]
        exact List.mem_of_mem_head? hh
      obtain ⟨l, hl, _⟩ := hou.2 cur u humem
      rw [hl]
      dsimp only
      by_cases h3 : (some l : Option (List (Int × Nat))) ≠ some [((cur : Int), 0)]
      · rw [if_pos h3]; exact ⟨none, rfl⟩
      · rw [if_neg h3]
        have hblt : u.1 < g.modules_list.length := by
          rw [← hlen]
          exact (List.get?_eq_some.1 hl).1
        obtain ⟨nextM, hm2⟩ : ∃ nextM, g.modules_list.get? u.1 = some nextM :=
          ⟨_, List.get?_eq_get hblt⟩
        rw [hm2]
        dsimp only
        obtain ⟨nd, hnd⟩ : ∃ nd, nextM.remote_device = some nd :=
          Option.isSome_iff_exists.1 (hdev nextM (List.get?_mem hm2))
        obtain ⟨cd, hcd⟩ : ∃ cd, curM.remote_device = some cd :=
          Option.isSome_iff_exists.1 (hdev curM (List.get?_mem hm))
        rw [hnd, hcd]
        dsimp only
        by_cases h4 : nd.1 ≠ cd.1
        · rw [if_pos h4]; exact ⟨none, rfl⟩
        · rw [if_neg h4]
          by_cases h5 : nd.2 ≠ cd.2
          · rw [if_pos h5]; exact ⟨none, rfl⟩
          · rw [if_neg h5]; exact ⟨some u.1, rfl⟩

/-- A module index is marked used. -/
def usedAt (used : List Bool) (j : Nat) : Prop := used.getD j false = true

lemma usedAt_lt (used : List Bool) (j : Nat) (h : usedAt used j) : j < used.length := by
  by_contra hj
  rw [usedAt, List.getD_eq_getElem?_getD, List.getElem?_eq_none (by omega)] at h
  cases h

lemma usedAt_set (used : List Bool) (cur j : Nat) (h : cur < used.length) :
    usedAt (used.set cur true) j ↔ (usedAt used j ∨ j = cur) := by
  unfold usedAt
  by_cases hj : j = cur
  · subst hj
    rw [List.getD_eq_getElem?_getD, List.getElem?_set_self h]
    simp
  · rw [List.getD_eq_getElem?_getD, List.getElem?_set_ne (fun he => hj he.symm),
      ← List.getD_eq_getElem?_getD]
    simp [hj]

lemma count_false_set (used : List Bool) :
    ∀ (cur : Nat), used.get? cur = some false →
      (used.set cur true).count false + 1 = used.count false := by
  induction used with
  | nil => intro cur h; cases h
  | cons b t ih =>
    intro cur h
    cases cur with
    | zero =>
      have hb : b = false := Option.some.inj h
      subst hb
      simp [List.count_cons]
    | succ n =>
      have := ih n h
      simp only [List.set_cons_succ, List.count_cons]
      omega

lemma chain_mem_tail_prev {R : Nat → Nat → Prop} :
    ∀ (x : Nat) (xs : List Nat), List.Chain' R (x :: xs) → ∀ a ∈ xs,
      ∃ prev ∈ x :: xs, R prev a := by
  intro x xs
  induction xs generalizing x with
  | nil => intro _ a ha; cases ha
  | cons y ys ih =>
    intro hch a ha
    have hxy : R x y := (List.chain'_cons.1 hch).1
    have hch2 : List.Chain' R (y :: ys) := (List.chain'_cons.1 hch).2
    rcases List.mem_cons.1 ha with ha | ha
    · subst ha
      exact ⟨x, List.mem_cons_self _ _, hxy⟩
    · obtain ⟨prev, hprev, hR⟩ := ih y hch2 a ha
      exact ⟨prev, List.mem_cons_of_mem _ hprev, hR⟩

lemma mem_unique_of_join_nodup :
    ∀ (parts : List (List Nat)) (p q : List Nat) (a : Nat),
      parts.join.Nodup → p ∈ parts → q ∈ parts → a ∈ p → a ∈ q → p = q := by
  intro parts
  induction parts with
  | nil => intro p q a _ hp; cases hp
  | cons r rest ih =>
    intro p q a hnd hp hq hap haq
    have hnd2 : (r ++ rest.join).Nodup := hnd
    rw [List.nodup_append] at hnd2
    rcases List.mem_cons.1 hp with hp | hp <;> rcases List.mem_cons.1 hq with hq | hq
    · rw [hp, hq]
    · exfalso
      refine hnd2.2.2 (hp ▸ hap) ?_
      rw [List.mem_join]
      exact ⟨q, hq, haq⟩
    · exfalso
      refine hnd2.2.2 (hq ▸ haq) ?_
      rw [List.mem_join]
      exact ⟨p, hp, hap⟩
    · exact ih p q a hnd2.2.1 hp hq hap haq

lemma head?_append_left {α : Type} (l l2 : List α) (h : l ≠ []) :
    (l ++ l2).head? = l.head? := by
  cases l with
  | nil => exact absurd rfl h
  | cons a t => rfl

lemma buildChain_spec (g : PipelineModulesGraph) (ou : List (List (Nat × Nat × Nat)))
    (hord : indexOrdered g) (hou : ouSpec g ou) :
    ∀ (fuel : Nat) (cur t : Nat) (used : List Bool) (acc : List Nat)
      (parts : List (List Nat)),
      used.length = g.modules_list.length →
      (∀ j, usedAt used j ↔ (∃ p ∈ parts, j ∈ p) ∨ j ∈ acc) →
      (∀ j, j < t → usedAt used j) →
      (∀ p ∈ parts, ∃ s rest2, p = s :: rest2 ∧ s < t) →
      (∀ p ∈ parts, List.Chain' (canExtend g ou) p) →
      (parts.join ++ acc).Nodup →
      List.Chain' (canExtend g ou) (acc ++ [cur]) →
      (acc ++ [cur]).head? = some t →
      ¬ usedAt used cur →
      cur < g.modules_list.length →
      used.count false < fuel →
      ∃ ext used2,
        buildChain g ou fuel cur used acc = .ok (acc ++ ext, used2) ∧
        ext ≠ [] ∧ ext.head? = some cur ∧
        List.Chain' (canExtend g ou) (acc ++ ext) ∧
        used2.length = used.length ∧
        (∀ j, usedAt used2 j ↔ usedAt used j ∨ j ∈ ext) ∧
        (∀ j ∈ ext, ¬ usedAt used j) ∧
        (acc ++ ext).Nodup ∧
        (acc ++ ext).head? = some t := by
  intro fuel
  induction fuel with
  | zero =>
    intro cur t used acc parts _ _ _ _ _ _ _ _ _ _ hfuel
    omega
  | succ n ih =>
    intro cur t used acc parts husedlen husediff hproc hstarts hchains hnodup
      haccch hacchead hfresh hcur hfuel
    have hcurlen : cur < used.length := by rw [husedlen]; exact hcur
    have hgetcur : used.get? cur = some false := by
      obtain ⟨v, hv⟩ : ∃ v, used.get? cur = some v := ⟨_, List.get?_eq_get hcurlen⟩
      cases v with
      | false => exact hv
      | true =>
        exfalso
        apply hfresh
        rw [usedAt, List.getD_eq_getElem?_getD, ← List.get?_eq_getElem?, hv]
        rfl
    have haccnd : acc.Nodup := (List.nodup_append.1 hnodup).2.1
    have hcurnacc : cur ∉ acc := by
      intro hc
      exact hfresh ((husediff cur).2 (Or.inr hc))
    obtain ⟨r, hr⟩ := chainNext_ok g ou cur hord hou hcur
    rw [buildChain, hgetcur]
    dsimp only
    rw [hr]
    cases r with
    | none =>
      refine ⟨[cur], used.set cur true, rfl, List.cons_ne_nil _ _, rfl, haccch,
        List.length_set used cur true, ?_, ?_, ?_, hacchead⟩
      · intro j
        rw [usedAt_set used cur j hcurlen, List.mem_singleton]
      · intro j hj
        rw [List.mem_singleton] at hj
        subst hj
        exact hfresh
      · exact List.nodup_append.2 ⟨haccnd, List.nodup_singleton cur,
          fun a ha ha2 => hcurnacc ((List.mem_singleton.1 ha2) ▸ ha)⟩
    | some next =>
      have hce : canExtend g ou cur next := hr
      have hlt : cur < next := canExtend_lt g ou cur next hord hce
      have hnextlt : next < g.modules_list.length := by
        have hin := canExtend_inputs g ou cur next hce
        have := (List.get?_eq_some.1 hin).1
        rw [hord.1] at this
        exact this
      have hpw : List.Pairwise (· < ·) (acc ++ [cur]) := by
        have hmono : List.Chain' (· < ·) (acc ++ [cur]) :=
          List.Chain'.imp (fun a b hab => canExtend_lt g ou a b hord hab) haccch
        exact List.chain'_iff_pairwise.1 hmono
      have htle : t ≤ cur := by
        cases acc with
        | nil =>
          have : cur = t := Option.some.inj hacchead
          omega
        | cons a0 rest0 =>
          have ha0 : a0 = t := Option.some.inj hacchead
          have : a0 < cur := by
            have hcons : List.Pairwise (· < ·) (a0 :: (rest0 ++ [cur])) := hpw
            exact (List.pairwise_cons.1 hcons).1 cur
              (List.mem_append.2 (Or.inr (List.mem_singleton_self _)))
          omega
      have hfresh2 : ¬ usedAt (used.set cur true) next := by
        rw [usedAt_set used cur next hcurlen]
        rintro (hun | hun)
        · rcases (husediff next).1 hun with ⟨p, hp, hnp⟩ | hna
          · obtain ⟨s, rest2, hps, hst⟩ := hstarts p hp
            rcases List.mem_cons.1 (hps ▸ hnp) with hns | hns
            · omega
            · obtain ⟨prev, hprevmem, hprevR⟩ :=
                chain_mem_tail_prev s rest2 (hps ▸ hchains p hp) next hns
              have hpc : prev = cur := canExtend_inj g ou prev cur next hprevR hce
              subst hpc
              exact hfresh ((husediff prev).2 (Or.inl ⟨p, hp, hps ▸ hprevmem⟩))
          · have : next < cur := (List.pairwise_append.1 hpw).2.2 next hna cur
              (List.mem_singleton_self _)
            omega
        · omega
      have hcount : (used.set cur true).count false < n := by
        have := count_false_set used cur hgetcur
        omega
      obtain ⟨ext2, used3, hbc, hne2, hhd2, hch2, hlen2, hiff2, hfr2, hnd2, hhdt2⟩ :=
        ih next t (used.set cur true) (acc ++ [cur]) parts
          (by rw [List.length_set]; exact husedlen)
          (by
            intro j
            rw [usedAt_set used cur j hcurlen, husediff j, List.mem_append,
              List.mem_singleton, or_assoc])
          (fun j hj => (usedAt_set used cur j hcurlen).2 (Or.inl (hproc j hj)))
          hstarts hchains
          (by
            have heq : parts.join ++ (acc ++ [cur]) = (parts.join ++ acc) ++ [cur] :=
              (List.append_assoc _ _ _).symm
            rw [heq]
            refine List.nodup_append.2 ⟨hnodup, List.nodup_singleton cur, ?_⟩
            intro a ha ha2
            rw [List.mem_singleton] at ha2
            subst ha2
            rcases List.mem_append.1 ha with ha | ha
            · exact hfresh ((husediff a).2 (Or.inl (List.mem_join.1 ha |>.imp
                (fun p hp => ⟨hp.1, hp.2⟩))))
            · exact hcurnacc ha)
          (by
            refine List.Chain'.append haccch (List.chain'_singleton next) ?_
            intro x hx y hy
            rw [List.getLast?_concat] at hx
            have hx2 : x = cur := Option.some.inj hx.symm
            have hy2 : y = next := by
              simp only [List.head?_cons] at hy
              exact Option.some.inj hy.symm
            rw [hx2, hy2]
            exact hce)
          (by
            rw [head?_append_left _ _ (by simp)]
            exact hacchead)
          hfresh2 hnextlt hcount
      have hacccons : acc ++ cur :: ext2 = (acc ++ [cur]) ++ ext2 := by
        rw [List.append_assoc]
        rfl
      refine ⟨cur :: ext2, used3, ?_, List.cons_ne_nil _ _, rfl, ?_, ?_, ?_, ?_, ?_, ?_⟩
      · rw [hacccons]
        exact hbc
      · rw [hacccons]
        exact hch2
      · rw [hlen2, List.length_set]
      · intro j
        rw [hiff2 j, usedAt_set used cur j hcurlen, List.mem_cons]
        tauto
      · intro j hj
        rcases List.mem_cons.1 hj with hj | hj
        · subst hj
          exact hfresh
        · intro hu
          exact hfr2 j hj ((usedAt_set used cur j hcurlen).2 (Or.inl hu))
      · rw [hacccons]
        exact hnd2
      · rw [hacccons]
        exact hhdt2

lemma splitOuter_spec (g : PipelineModulesGraph) (ou : List (List (Nat × Nat × Nat)))
    (hord : indexOrdered g) (hou : ouSpec g ou) :
    ∀ (k t : Nat) (used : List Bool) (parts : List (List Nat)),
      t + k = g.modules_list.length →
      used.length = g.modules_list.length →
      (∀ j, usedAt used j ↔ ∃ p ∈ parts, j ∈ p) →
      (∀ j, j < t → usedAt used j) →
      (∀ p ∈ parts, ∃ s rest2, p = s :: rest2 ∧ s < t) →
      (∀ p ∈ parts, List.Chain' (canExtend g ou) p) →
      parts.join.Nodup →
      ∃ used2 parts2,
        splitOuter g ou (List.range' t k) used parts = .ok (used2, parts2) ∧
        used2.length = g.modules_list.length ∧
        (∀ j, usedAt used2 j ↔ ∃ p ∈ parts2, j ∈ p) ∧
        (∀ j, j < g.modules_list.length → usedAt used2 j) ∧
        (∀ p ∈ parts2, ∃ s rest2, p = s :: rest2) ∧
        (∀ p ∈ parts2, List.Chain' (canExtend g ou) p) ∧
        parts2.join.Nodup := by
  intro k
  induction k with
  | zero =>
    intro t used parts hk husedlen husediff hproc hstarts hchains hnodup
    refine ⟨used, parts, rfl, husedlen, husediff, ?_, ?_, hchains, hnodup⟩
    · intro j hj
      exact hproc j (by omega)
    · intro p hp
      obtain ⟨s, rest2, hps, _⟩ := hstarts p hp
      exact ⟨s, rest2, hps⟩
  | succ n ih =>
    intro t used parts hk husedlen husediff hproc hstarts hchains hnodup
    have htlt : t < g.modules_list.length := by omega
    have htlen : t < used.length := by rw [husedlen]; exact htlt
    rw [List.range'_succ]
    obtain ⟨v, hv⟩ : ∃ v, used.get? t = some v := ⟨_, List.get?_eq_get htlen⟩
    rw [splitOuter, hv]
    cases v with
    | true =>
      dsimp only
      have hut : usedAt used t := by
        rw [usedAt, List.getD_eq_getElem?_getD, ← List.get?_eq_getElem?, hv]
        rfl
      exact ih (t + 1) used parts (by omega) husedlen husediff
        (fun j hj => by
          rcases Nat.lt_succ_iff_lt_or_eq.1 hj with hj | hj
          · exact hproc j hj
          · exact hj ▸ hut)
        (fun p hp => by
          obtain ⟨s, rest2, hps, hst⟩ := hstarts p hp
          exact ⟨s, rest2, hps, by omega⟩)
        hchains hnodup
    | false =>
      dsimp only
      have hfresh : ¬ usedAt used t := by
        rw [usedAt, List.getD_eq_getElem?_getD, ← List.get?_eq_getElem?, hv]
        simp
      obtain ⟨ext, used2, hbc, hne, hhd, hch, hlen2, hiff2, hfr2, hnd2, hhdt2⟩ :=
        buildChain_spec g ou hord hou (g.modules_list.length + 1) t t used [] parts
          husedlen
          (by intro j; rw [husediff j]; simp)
          hproc hstarts hchains
          (by rw [List.append_nil]; exact hnodup)
          (by simpa using List.chain'_singleton t)
          (by simp)
          hfresh htlt
          (by
            have := List.count_le_length false used
            omega)
      rw [List.nil_append] at hbc hch hnd2 hhdt2
      rw [hbc]
      dsimp only
      obtain ⟨exthd, exttl, hext⟩ : ∃ a l2, ext = a :: l2 := by
        cases ext with
        | nil => exact absurd rfl hne
        | cons a l2 => exact ⟨a, l2, rfl⟩
      have hexthd : exthd = t := by
        rw [hext] at hhdt2
        exact Option.some.inj hhdt2
      exact ih (t + 1) used2 (parts ++ [ext]) (by omega)
        (by rw [hlen2]; exact husedlen)
        (by
          intro j
          rw [hiff2 j, husediff j]
          constructor
          · rintro (⟨p, hp, hjp⟩ | hj)
            · exact ⟨p, List.mem_append.2 (Or.inl hp), hjp⟩
            · exact ⟨ext, List.mem_append.2 (Or.inr (List.mem_singleton_self _)), hj⟩
          · rintro ⟨p, hp, hjp⟩
            rcases List.mem_append.1 hp with hp | hp
            · exact Or.inl ⟨p, hp, hjp⟩
            · rw [List.mem_singleton.1 hp] at hjp
              exact Or.inr hjp)
        (by
          intro j hj
          rcases Nat.lt_succ_iff_lt_or_eq.1 hj with hj | hj
          · exact (hiff2 j).2 (Or.inl (hproc j hj))
          · refine (hiff2 j).2 (Or.inr ?_)
            rw [hj, hext, hexthd]
            exact List.mem_cons_self _ _)
        (by
          intro p hp
          rcases List.mem_append.1 hp with hp | hp
          · obtain ⟨s, rest2, hps, hst⟩ := hstarts p hp
            exact ⟨s, rest2, hps, by omega⟩
          · rw [List.mem_singleton.1 hp, hext]
            exact ⟨exthd, exttl, rfl, by omega⟩)
        (by
          intro p hp
          rcases List.mem_append.1 hp with hp | hp
          · exact hchains p hp
          · rw [List.mem_singleton.1 hp]
            exact hch)
        (by
          have hjoin : (parts ++ [ext]).join = parts.join ++ ext := by
            simp
          rw [hjoin]
          refine List.nodup_append.2 ⟨hnodup, hnd2, ?_⟩
          intro a ha ha2
          exact hfr2 a ha2 ((husediff a).2 (List.mem_join.1 ha)))

/-- Master result about the partitioner: on every index-ordered graph,
_split_module succeeds, the partitions cover every module index exactly
once, each partition is a nonempty chain for the extension relation, and
the derived consumer/model-input tables are sound. -/
theorem split_module_spec (g : PipelineModulesGraph) (hord : indexOrdered g) :
    ∃ ou miu parts,
      g.compute_output_users = .ok (ou, miu) ∧
      split_module g = .ok parts ∧
      ou.length = g.modules_list.length ∧
      (∀ c x, x ∈ ou.getD c [] → ouEntryValid g c x) ∧
      (∀ x ∈ miu, miuEntryValid g x) ∧
      (∀ j, (∃ p ∈ parts, j ∈ p) ↔ j < g.modules_list.length) ∧
      parts.join.Nodup ∧
      (∀ p ∈ parts, p ≠ [] ∧ List.Chain' (canExtend g ou) p) := by
  obtain ⟨ou, miu, hcou, hlen, houv, hmiu⟩ := compute_output_users_spec g hord
  have hou : ouSpec g ou := ⟨hlen, houv⟩
  obtain ⟨used2, parts2, hsplit, hl2, hiff, hall, hstarts, hchains, hnodup⟩ :=
    splitOuter_spec g ou hord hou g.modules_list.length 0
      (List.replicate g.modules_list.length false) []
      (by omega)
      (List.length_replicate _ _)
      (by
        intro j
        constructor
        · intro hj
          exfalso
          rw [usedAt, List.getD_eq_getElem?_getD, List.getElem?_replicate] at hj
          revert hj
          split <;> simp
        · rintro ⟨p, hp, _⟩
          cases hp)
      (by intro j hj; omega)
      (by intro p hp; cases hp)
      (by intro p hp; cases hp)
      List.nodup_nil
  refine ⟨ou, miu, parts2, hcou, ?_, hlen, houv, hmiu, ?_, hnodup, ?_⟩
  · rw [← List.range_eq_range'] at hsplit
    rw [split_module, hcou]
    dsimp only
    rw [hsplit]
  · intro j
    constructor
    · rintro ⟨p, hp, hjp⟩
      have hu : usedAt used2 j := (hiff j).2 ⟨p, hp, hjp⟩
      have := usedAt_lt used2 j hu
      omega
    · intro hj
      exact (hiff j).1 (hall j hj)
  · intro p hp
    obtain ⟨s, rest2, hps⟩ := hstarts p hp
    exact ⟨by rw [hps]; exact List.cons_ne_nil _ _, hchains p hp⟩

/-- Claim C1 (amended): for every graph obeying the index-ordering
discipline (all input slots assigned, sources strictly below their
consumers, modules instantiated), _split_module succeeds and returns
partitions whose union is exactly the set of module indices, with each
index in exactly one partition (the concatenation of all partitions has no
duplicates), and consecutive modules in a partition satisfy the extension
rule: single non-tuple output with one consumer, the later module's only
input is (earlier module, slot 0), and both share worker and device. -/
theorem C1_split_module_partitions (g : PipelineModulesGraph)
    (hord : indexOrdered g) :
    ∃ ou miu parts,
      g.compute_output_users = .ok (ou, miu) ∧
      split_module g = .ok parts ∧
      (∀ j, (∃ p ∈ parts, j ∈ p) ↔ j < g.modules_list.length) ∧
      parts.join.Nodup ∧
      (∀ p ∈ parts, p ≠ [] ∧ List.Chain' (extensionRule g ou) p) := by
  obtain ⟨ou, miu, parts, hcou, hsplit, _, _, _, hcov, hnd, hch⟩ :=
    split_module_spec g hord
  refine ⟨ou, miu, parts, hcou, hsplit, hcov, hnd, ?_⟩
  intro p hp
  exact ⟨(hch p hp).1,
    List.Chain'.imp (fun a b hab => (chainNext_eq_some_iff g ou a b).1 hab)
      (hch p hp).2⟩

/-- A two-module chain graph on one worker/device, fed by the model
input. -/
def gChain : PipelineModulesGraph :=
  ⟨[⟨1, none, some ("w0", "cpu")⟩, ⟨1, none, some ("w0", "cpu")⟩],
   [some [(-1, 0)], some [(0, 0)]]⟩

/-- Witness for C1 (amended) on the concrete chain graph. -/
theorem C1_split_module_partitions_witness :
    indexOrdered gChain ∧
    ∃ ou miu parts,
      gChain.compute_output_users = .ok (ou, miu) ∧
      split_module gChain = .ok parts ∧
      (∀ j, (∃ p ∈ parts, j ∈ p) ↔ j < gChain.modules_list.length) ∧
      parts.join.Nodup ∧
      (∀ p ∈ parts, p ≠ [] ∧ List.Chain' (extensionRule gChain ou) p) :=
  ⟨by decide, C1_split_module_partitions gChain (by decide)⟩

/-- An acyclic but not index-ordered graph: module 0 consumes the output
of module 1, and module 1 is fed by the model input.  Both modules sit on
one worker/device, so the chain from module 1 extends into the
already-partitioned module 0. -/
def gUnordered : PipelineModulesGraph :=
  ⟨[⟨1, none, some ("w0", "cpu")⟩, ⟨1, none, some ("w0", "cpu")⟩],
   [some [(1, 0)], some [(-1, 0)]]⟩

/-- Counterexample to claim C1 as stated: `gUnordered` is acyclic (its
only dependency edge is 0 -> 1), yet _split_module does not return
partitions at all — it crashes with the AssertionError of the while-loop
when the chain grown from module 1 reaches the already-used module 0.
Acyclicity alone is not enough; the code needs the stronger index-ordering
discipline (see the amended claim). -/
theorem C1_acyclic_counterexample :
    acyclicSpec gUnordered ∧ split_module gUnordered = .error .assertionError := by
  constructor
  · have hdep : ∀ a b, dependsOn gUnordered a b → a = 0 ∧ b = 1 := by
      rintro a b ⟨l, s, hl, hs, hsb⟩
      match a with
      | 0 =>
        have hl2 : some (some [((1 : Int), (0 : Nat))]) = some (some l) := hl
        obtain rfl : l = [((1 : Int), (0 : Nat))] :=
          (Option.some.inj (Option.some.inj hl2)).symm
        have hs2 : s = ((1 : Int), (0 : Nat)) := List.mem_singleton.1 hs
        subst hs2
        refine ⟨rfl, ?_⟩
        have hb : (1 : Int) = (b : Int) := hsb
        exact_mod_cast hb.symm
      | 1 =>
        have hl2 : some (some [((-1 : Int), (0 : Nat))]) = some (some l) := hl
        obtain rfl : l = [((-1 : Int), (0 : Nat))] :=
          (Option.some.inj (Option.some.inj hl2)).symm
        have hs2 : s = ((-1 : Int), (0 : Nat)) := List.mem_singleton.1 hs
        subst hs2
        exfalso
        have hb : (-1 : Int) = (b : Int) := hsb
        omega
      | n + 2 => exact Option.noConfusion hl
    have hfact : ∀ a b, Relation.TransGen (dependsOn gUnordered) a b →
        a = 0 ∧ b = 1 := by
      intro a b h
      induction h with
      | single h => exact hdep _ _ h
      | tail _ hbc ih =>
        have h1 := hdep _ _ hbc
        omega
    intro i hTG
    have := hfact i i hTG
    omega
  · decide

lemma nonhead_pred (g : PipelineModulesGraph) (ou : List (List (Nat × Nat × Nat)))
    (p : List Nat) (hch : List.Chain' (canExtend g ou) p) (j : Nat)
    (hjp : j ∈ p) (hnh : p.head? ≠ some j) :
    ∃ prev ∈ p, canExtend g ou prev j := by
  cases p with
  | nil => cases hjp
  | cons s rest2 =>
    rcases List.mem_cons.1 hjp with hjs | hjs
    · exact absurd (by rw [hjs, List.head?_cons] : (s :: rest2 : List Nat).head? = some j) hnh
    · exact chain_mem_tail_prev s rest2 hch j hjs

/-- Claim C9: on an index-ordered graph, every module fed directly by the
overall model input, and every module consuming the output of a module
that sits in a different partition, is the first module of its own
partition; moreover every consumer of a partition's last module is a
partition head, so the lookups in DistributedPipeline that match
`p[0] == user` and `p[0] == fi` always succeed. -/
theorem C9_consumer_partition_heads (g : PipelineModulesGraph)
    (hord : indexOrdered g) :
    ∃ ou miu parts,
      g.compute_output_users = .ok (ou, miu) ∧
      split_module g = .ok parts ∧
      (∀ x ∈ miu, ∃ p ∈ parts, p.head? = some x.1) ∧
      (∀ c (x : Nat × Nat × Nat), x ∈ ou.getD c [] →
        (¬ ∃ p ∈ parts, c ∈ p ∧ x.1 ∈ p) →
        ∃ p ∈ parts, p.head? = some x.1) ∧
      (∀ p ∈ parts, ∀ last2, p.getLast? = some last2 →
        ∀ x ∈ ou.getD last2 [], ∃ q ∈ parts, q.head? = some x.1) := by
  obtain ⟨ou, miu, parts, hcou, hsplit, hlen, houv, hmiu, hcov, hnd, hch⟩ :=
    split_module_spec g hord
  have hfind : ∀ (x1 : Nat), x1 < g.modules_list.length → ∃ p ∈ parts, x1 ∈ p :=
    fun x1 hx1 => (hcov x1).2 hx1
  refine ⟨ou, miu, parts, hcou, hsplit, ?_, ?_, ?_⟩
  · intro x hx
    obtain ⟨l, src, hlx, hsl, hneg⟩ := hmiu x hx
    have hx1lt : x.1 < g.modules_list.length := by
      have := (List.get?_eq_some.1 hlx).1
      rw [hord.1] at this
      exact this
    obtain ⟨p, hp, hxp⟩ := hfind x.1 hx1lt
    by_cases hhd : p.head? = some x.1
    · exact ⟨p, hp, hhd⟩
    · exfalso
      obtain ⟨prev, _, hprevR⟩ := nonhead_pred g ou p (hch p hp).2 x.1 hxp hhd
      have hin := canExtend_inputs g ou prev x.1 hprevR
      rw [hlx] at hin
      obtain rfl : l = [((prev : Int), 0)] :=
        Option.some.inj (Option.some.inj hin)
      have hs2 : (src, x.2.2) = ((prev : Int), 0) := List.mem_singleton.1 hsl
      have : src = (prev : Int) := congrArg Prod.fst hs2
      omega
  · intro c x hx hdiff
    obtain ⟨l, hlx, hmem⟩ := houv c x hx
    have hx1lt : x.1 < g.modules_list.length := by
      have := (List.get?_eq_some.1 hlx).1
      rw [hord.1] at this
      exact this
    obtain ⟨p, hp, hxp⟩ := hfind x.1 hx1lt
    by_cases hhd : p.head? = some x.1
    · exact ⟨p, hp, hhd⟩
    · exfalso
      obtain ⟨prev, hprevp, hprevR⟩ := nonhead_pred g ou p (hch p hp).2 x.1 hxp hhd
      have hin := canExtend_inputs g ou prev x.1 hprevR
      rw [hlx] at hin
      obtain rfl : l = [((prev : Int), 0)] :=
        Option.some.inj (Option.some.inj hin)
      have hs2 : ((c : Int), x.2.2) = ((prev : Int), 0) := List.mem_singleton.1 hmem
      have hcp : (c : Int) = (prev : Int) := congrArg Prod.fst hs2
      have hcp2 : c = prev := by exact_mod_cast hcp
      exact hdiff ⟨p, hp, hcp2 ▸ hprevp, hxp⟩
  · intro p hp last2 hlast x hx
    obtain ⟨l, hlx, hmem⟩ := houv last2 x hx
    have hx1lt : x.1 < g.modules_list.length := by
      have := (List.get?_eq_some.1 hlx).1
      rw [hord.1] at this
      exact this
    obtain ⟨q, hq, hxq⟩ := hfind x.1 hx1lt
    by_cases hhd : q.head? = some x.1
    · exact ⟨q, hq, hhd⟩
    · exfalso
      obtain ⟨prev, hprevq, hprevR⟩ := nonhead_pred g ou q (hch q hq).2 x.1 hxq hhd
      have hin := canExtend_inputs g ou prev x.1 hprevR
      rw [hlx] at hin
      obtain rfl : l = [((prev : Int), 0)] :=
        Option.some.inj (Option.some.inj hin)
      have hs2 : ((last2 : Int), x.2.2) = ((prev : Int), 0) := List.mem_singleton.1 hmem
      have hlp : last2 = prev := by
        have h6 : (last2 : Int) = (prev : Int) := congrArg Prod.fst hs2
        exact_mod_cast h6
      subst hlp
      have hpq : p = q :=
        mem_unique_of_join_nodup parts p q last2 hnd hp hq
          (List.mem_of_mem_getLast? hlast) hprevq
      subst hpq
      have hpw : List.Pairwise (· < ·) p :=
        List.chain'_iff_pairwise.1
          (List.Chain'.imp (fun a b hab => canExtend_lt g ou a b hord hab) (hch p hp).2)
      obtain ⟨q2, hq2⟩ := List.getLast?_eq_some_iff.1 hlast
      have hltx : last2 < x.1 := canExtend_lt g ou last2 x.1 hord hprevR
      rw [hq2] at hxq hpw
      rcases List.mem_append.1 hxq with hxq | hxq
      · have : x.1 < last2 := (List.pairwise_append.1 hpw).2.2 x.1 hxq last2
          (List.mem_singleton_self _)
        omega
      · have : x.1 = last2 := List.mem_singleton.1 hxq
        omega

/-- Witness for C9 on the entry-fanin graph `gEntry`: modules 0 and 1 are
fed by the model input and module 2 consumes outputs across partitions;
all of them head their partitions. -/
theorem C9_consumer_partition_heads_witness :
    indexOrdered gEntry ∧
    ∃ ou miu parts,
      gEntry.compute_output_users = .ok (ou, miu) ∧
      split_module gEntry = .ok parts ∧
      (∀ x ∈ miu, ∃ p ∈ parts, p.head? = some x.1) ∧
      (∀ c (x : Nat × Nat × Nat), x ∈ ou.getD c [] →
        (¬ ∃ p ∈ parts, c ∈ p ∧ x.1 ∈ p) →
        ∃ p ∈ parts, p.head? = some x.1) ∧
      (∀ p ∈ parts, ∀ last2, p.getLast? = some last2 →
        ∀ x ∈ ou.getD last2 [], ∃ q ∈ parts, q.head? = some x.1) :=
  ⟨by decide, C9_consumer_partition_heads gEntry (by decide)⟩
